import Mathlib

/-!
Verification development for the Heartbeat-Monitoring-System repository
(`src/main.py`).  The Python code is shallowly embedded:

* Absolute UTC instants are modelled as `ℚ` (seconds since an arbitrary
  epoch).  `datetime` arithmetic in the source only ever adds second
  deltas and compares instants, so rationals capture it exactly
  (fractional seconds included).
* `parse_timestamp` (main.py lines 38-67) does ISO-8601 string munging and
  returns either a UTC instant or `None`.  Timestamp field values are
  modelled directly by their parse result (`Option ℚ`): `some q` stands
  for any text that parses to the instant `q`, `none` for unparseable or
  non-string values.  No claim concerns the string syntax itself.
* The `while` loops of `detect_missed_heartbeats` (lines 146-200) are
  embedded with an explicit fuel parameter; `none` means the fuel was
  exhausted.  The top-level wrapper supplies a concrete fuel expression
  which is proven sufficient for every valid configuration, so fuel
  exhaustion is unreachable there.
* `datetime.now(timezone.utc)` is modelled as an explicitly injected
  parameter `now`, as prescribed by the spec's design note on the
  wall-clock dependency.  The source reads the clock at lines 186 and 191
  (once per trailing-loop iteration); the embedding uses the single value
  `now` for all reads, i.e. it describes runs during which the clock does
  not tick — the only setting in which any claim here is statable.
-/

/-- A value stored in a raw event's field: a string, or anything else
(the validator only distinguishes strings from non-strings). -/
inductive FieldVal where
  | vstr (s : String)
  | vother
deriving DecidableEq

/-- A raw input record (`event` in main.py): `isDict` is false for
non-dict entries; `service`/`timestamp` are `none` when the key is
absent.  A present timestamp value is modelled by its
`parse_timestamp` result (`Option ℚ`). -/
structure RawEvent where
  isDict : Bool
  service : Option FieldVal
  timestamp : Option (Option ℚ)
deriving DecidableEq

/-- `str.strip()`: drop leading and trailing whitespace code points.
(Python strips the unicode whitespace class; the engine's semantics
depends only on stripping being some fixed trim function, and this
structural definition — unlike `String.trim`, which recurses on byte
positions — evaluates inside the kernel.) -/
def pyStrip (s : String) : String :=
  ⟨((s.data.dropWhile Char.isWhitespace).reverse.dropWhile Char.isWhitespace).reverse⟩

/-- `self.parse_timestamp(event['timestamp'])` for a record whose
`timestamp` key may be absent (validation checks presence first). -/
def RawEvent.parsedTs (e : RawEvent) : Option ℚ :=
  match e.timestamp with
  | some p => p
  | none => none

/-- The trimmed service name (`event['service'].strip()`), defaulting to
`""` on records that never pass validation. -/
def RawEvent.serviceKey (e : RawEvent) : String :=
  match e.service with
  | some (.vstr s) => pyStrip s
  | _ => ""

/-- The parsed instant of a validated event (validation guarantees the
parse succeeded, so the default is unreachable on pipeline data). -/
def RawEvent.eventInstant (e : RawEvent) : ℚ :=
  e.parsedTs.getD 0

/-- The configuration stored by `HeartbeatMonitor.__init__`
(main.py lines 31-35). -/
structure Config where
  interval_seconds : ℤ
  allowed_misses : ℤ
  tolerance : ℚ
  future_limit : ℤ
  gap_limit : ℤ
deriving DecidableEq

/-- `self.tolerance_seconds = interval_seconds * tolerance`
(main.py line 36). -/
def Config.tolerance_seconds (cfg : Config) : ℚ :=
  (cfg.interval_seconds : ℚ) * cfg.tolerance

/-- The ranges accepted by `HeartbeatMonitor.__init__` (lines 16-29). -/
def Config.Valid (cfg : Config) : Prop :=
  0 < cfg.interval_seconds ∧ cfg.interval_seconds ≤ 3600 ∧
  0 < cfg.allowed_misses ∧ cfg.allowed_misses ≤ 10 ∧
  0 ≤ cfg.tolerance ∧ cfg.tolerance ≤ 1 ∧
  0 ≤ cfg.future_limit ∧ 0 < cfg.gap_limit

instance (cfg : Config) : Decidable cfg.Valid := by
  unfold Config.Valid
  infer_instance

/-- `HeartbeatMonitor.__init__` (main.py lines 13-36): the sequence of
range checks, each raising `ValueError` (modelled as `Except.error`)
before any field is stored. -/
def HeartbeatMonitor.init (interval_seconds : ℤ) (allowed_misses : ℤ)
    (tolerance : ℚ) (future_limit : ℤ) (gap_limit : ℤ) : Except String Config :=
  if interval_seconds ≤ 0 then .error "interval_seconds must be positive"
  else if 3600 < interval_seconds then .error "interval_seconds cannot exceed 3600 seconds"
  else if allowed_misses ≤ 0 then .error "allowed_misses must be positive"
  else if 10 < allowed_misses then .error "allowed_misses cannot exceed 10"
  else if ¬ (0 ≤ tolerance ∧ tolerance ≤ 1) then .error "tolerance must be between 0.0 and 1.0"
  else if future_limit < 0 then .error "future_limit must be non-negative"
  else if gap_limit ≤ 0 then .error "gap_limit must be positive"
  else .ok ⟨interval_seconds, allowed_misses, tolerance, future_limit, gap_limit⟩

/-- `validate_event` (main.py lines 69-93), with the wall clock
(`datetime.now(timezone.utc)`) injected as `now`.  The checks run in
source order; the future bound is the hardcoded 24 hours (86400 s).
The method reads nothing from `self`, which is why the whole `cfg`
argument is inert. -/
def validate_event (cfg : Config) (now : ℚ) (e : RawEvent) : Bool :=
  if e.isDict = false then false
  else
    match e.service, e.timestamp with
    | some (.vstr s), some p =>
        if pyStrip s = "" then false
        else if 100 < (pyStrip s).length then false
        else
          match p with
          | some t => if now + 86400 < t then false else true
          | none => false
    | _, _ => false

/-- The structural rules of `validate_event` (everything except the
future-bound check): dict shape, both fields present, service a
non-blank trimmed string of at most 100 characters, timestamp parseable. -/
def structurally_valid (e : RawEvent) : Bool :=
  e.isDict &&
  (match e.service with
   | some (.vstr s) => !(pyStrip s = "") && decide ((pyStrip s).length ≤ 100)
   | _ => false) &&
  (match e.timestamp with
   | some (some _) => true
   | _ => false)

/-- Append `e` to the group of key `k` in an insertion-ordered
association list, creating the group at the end if absent.  This is the
behaviour of `defaultdict(list)` plus `services[name].append(event)`
(main.py lines 96-106) together with Python's dict insertion order. -/
def insertEvent (k : String) (e : RawEvent) :
    List (String × List RawEvent) → List (String × List RawEvent)
  | [] => [(k, [e])]
  | (k', l) :: rest =>
      if k' = k then (k', l ++ [e]) :: rest
      else (k', l) :: insertEvent k e rest

/-- One step of the grouping loop (main.py lines 99-106): skip events
that fail validation, append the rest under their trimmed name. -/
def groupStep (cfg : Config) (now : ℚ)
    (m : List (String × List RawEvent)) (e : RawEvent) :
    List (String × List RawEvent) :=
  if validate_event cfg now e then insertEvent e.serviceKey e m else m

/-- The grouping loop over all events (main.py lines 99-106). -/
def rawGroups (cfg : Config) (now : ℚ) (events : List RawEvent) :
    List (String × List RawEvent) :=
  events.foldl (groupStep cfg now) []

/-- Stable insertion of `x` into a list sorted by `key`: `x` goes before
the first element whose key is not smaller, so earlier input elements
stay ahead of later equal-key ones. -/
def insertByKey {α : Type} (key : α → ℚ) (x : α) : List α → List α
  | [] => [x]
  | y :: ys => if key y < key x then y :: insertByKey key x ys else x :: y :: ys

/-- Stable sort by a rational key.  `list.sort(key=...)` in Python is a
stable sort; any two stable sorts by the same key agree on every input,
so this insertion sort computes exactly the source's result
(main.py lines 110-112 and 221). -/
def sortByKey {α : Type} (key : α → ℚ) : List α → List α
  | [] => []
  | x :: xs => insertByKey key x (sortByKey key xs)

/-- The deduplication walk (main.py lines 115-126): keep the first event
for each distinct timestamp, tracking seen keys.  Two UTC datetimes have
the same `isoformat()` string exactly when they are equal, so the seen
set is modelled as a list of parsed instants. -/
def dedupByKey {α : Type} (key : α → ℚ) : List ℚ → List α → List α
  | _, [] => []
  | seen, x :: xs =>
      if key x ∈ seen then dedupByKey key seen xs
      else x :: dedupByKey key (key x :: seen) xs

/-- `sort_events_by_service` (main.py lines 95-133): validate and group,
then per service sort chronologically and drop duplicate instants.  The
insertion-ordered association list models Python's dict. -/
def sort_events_by_service (cfg : Config) (now : ℚ) (events : List RawEvent) :
    List (String × List RawEvent) :=
  (rawGroups cfg now events).map
    (fun g => (g.1, dedupByKey RawEvent.eventInstant [] (sortByKey RawEvent.eventInstant g.2)))

/-- A computable upper bound on a rational (`q ≤ ratBound q`, hence
`⌈q⌉.toNat ≤ ratBound q`), used to size the loop fuel.  (`Int.ceil`
itself does not reduce inside the kernel.) -/
def ratBound (q : ℚ) : ℕ := q.num.toNat + 1

/-- The inner scan of `detect_missed_heartbeats` (main.py lines 162-175):
starting at the cursor, skip events older than the expected slot, stop
without consuming on an event beyond the tolerance window, or consume a
matching event.  Returns (found, remaining events, expected clock). -/
def scanForHeartbeat (tol : ℚ) (cur : ℚ) : List ℚ → Bool × List ℚ × ℚ
  | [] => (false, [], cur)
  | t :: rest =>
      if |t - cur| ≤ tol then (true, rest, t)
      else if tol < t - cur then (false, t :: rest, cur)
      else scanForHeartbeat tol cur rest

/-- The trailing-extrapolation loop (main.py lines 189-199), with fuel:
while the miss counter is below the threshold, advance the expected
clock; past-deadline slots count as misses and fire alerts, a
not-yet-due slot stops the projection. -/
def trailingAux (cfg : Config) (now : ℚ) :
    ℕ → ℚ → ℕ → List ℚ → Option (List ℚ)
  | 0, _, misses, acc =>
      if (misses : ℤ) < cfg.allowed_misses then none else some acc
  | fuel + 1, cur, misses, acc =>
      if (misses : ℤ) < cfg.allowed_misses then
        let cur1 := cur + (cfg.interval_seconds : ℚ)
        if cfg.tolerance_seconds < now - cur1 then
          if cfg.allowed_misses ≤ (misses : ℤ) + 1 then
            trailingAux cfg now fuel cur1 0 (acc ++ [cur1])
          else
            trailingAux cfg now fuel cur1 (misses + 1) acc
        else some acc
      else some acc

/-- The main loop of `detect_missed_heartbeats` (main.py lines 146-200),
with fuel.  State: remaining events past the cursor (`rem`), the
expected clock (`cur`), the consecutive-miss counter, and the alerts
accumulated so far.  `last` is `parse_timestamp(service_events[-1])` and
`tfuel` the fuel handed to the trailing loop. -/
def detectAux (cfg : Config) (now : ℚ) (last : ℚ) (tfuel : ℕ) :
    ℕ → List ℚ → ℚ → ℕ → List ℚ → Option (List ℚ)
  | 0, _, _, _, _ => none
  | fuel + 1, rem, cur, misses, acc =>
      let i : ℚ := (cfg.interval_seconds : ℚ)
      let next_expected := cur + i
      let gap_seconds := next_expected - cur
      let max_gap : ℚ := ((cfg.interval_seconds * cfg.gap_limit : ℤ) : ℚ)
      if max_gap < gap_seconds ∧ rem ≠ [] then
        detectAux cfg now last tfuel fuel rem.tail (rem.headD 0) 0 acc
      else
        let s := scanForHeartbeat cfg.tolerance_seconds next_expected rem
        let found := s.1
        let rem1 := s.2.1
        let cur1 := s.2.2
        let ma : ℕ × List ℚ :=
          if found then (0, acc)
          else if cfg.allowed_misses ≤ (misses : ℤ) + 1 then (0, acc ++ [next_expected])
          else (misses + 1, acc)
        if rem1 = [] then
          if now - last < max_gap then trailingAux cfg now tfuel cur1 ma.1 ma.2
          else some ma.2
        else
          detectAux cfg now last tfuel fuel rem1 cur1 ma.1 ma.2

/-- `detect_missed_heartbeats` (main.py lines 135-202) on an
already-parsed timeline.  The fuel expressions are embedding artifacts;
they are proven sufficient for every valid configuration, so on such
configurations the result is always `some`. -/
def detect_missed_heartbeats (cfg : Config) (now : ℚ) (events : List ℚ) :
    Option (List ℚ) :=
  match events with
  | [] => some []
  | e0 :: rest =>
      let i : ℚ := (cfg.interval_seconds : ℚ)
      let sup : ℚ := rest.foldr max e0
      let mainFuel : ℕ := rest.length + ratBound ((sup + i - e0) / i) + 1
      let tFuel : ℕ := cfg.allowed_misses.toNat + ratBound ((now - e0) / i) + 1
      detectAux cfg now ((e0 :: rest).getLastD 0) tFuel mainFuel rest e0 0 []

/-- An output alert record.  `alert_at` is the second printed by
`alert_time.strftime("%Y-%m-%dT%H:%M:%SZ")` (main.py line 218), i.e. the
instant truncated to whole seconds; within the representable range that
string determines and is ordered exactly like this integer. -/
structure Alert where
  service : String
  alert_at : ℤ
deriving DecidableEq

/-- The per-service loop of `monitor_heartbeats` (main.py lines 212-219):
run the detector on each group and collect formatted alerts. -/
def collectAlerts (cfg : Config) (now : ℚ) :
    List (String × List RawEvent) → Option (List Alert)
  | [] => some []
  | (name, evs) :: rest =>
      match detect_missed_heartbeats cfg now (evs.map RawEvent.eventInstant),
            collectAlerts cfg now rest with
      | some ts, some tl => some (ts.map (fun t => ⟨name, ⌊t⌋⟩) ++ tl)
      | _, _ => none

/-- `monitor_heartbeats` (main.py lines 204-222) on a list input (the
non-list early return is outside this embedding's input type): group,
detect per service, then stable-sort all alerts by the formatted
`alert_at` key. -/
def monitor_heartbeats (cfg : Config) (now : ℚ) (events : List RawEvent) :
    Option (List Alert) :=
  (collectAlerts cfg now (sort_events_by_service cfg now events)).map
    (sortByKey (fun a => (a.alert_at : ℚ)))

/-- `detectAux` with the large-gap resynchronization branch
(main.py lines 152-157) deleted and nothing else changed.  Comparing the
two functions states that the branch is dead code. -/
def detectAuxNoGap (cfg : Config) (now : ℚ) (last : ℚ) (tfuel : ℕ) :
    ℕ → List ℚ → ℚ → ℕ → List ℚ → Option (List ℚ)
  | 0, _, _, _, _ => none
  | fuel + 1, rem, cur, misses, acc =>
      let i : ℚ := (cfg.interval_seconds : ℚ)
      let next_expected := cur + i
      let max_gap : ℚ := ((cfg.interval_seconds * cfg.gap_limit : ℤ) : ℚ)
      let s := scanForHeartbeat cfg.tolerance_seconds next_expected rem
      let found := s.1
      let rem1 := s.2.1
      let cur1 := s.2.2
      let ma : ℕ × List ℚ :=
        if found then (0, acc)
        else if cfg.allowed_misses ≤ (misses : ℤ) + 1 then (0, acc ++ [next_expected])
        else (misses + 1, acc)
      if rem1 = [] then
        if now - last < max_gap then trailingAux cfg now tfuel cur1 ma.1 ma.2
        else some ma.2
      else
        detectAuxNoGap cfg now last tfuel fuel rem1 cur1 ma.1 ma.2

/-- `detect_missed_heartbeats` rebuilt on top of the branch-free loop. -/
def detect_missed_heartbeats_nogap (cfg : Config) (now : ℚ) (events : List ℚ) :
    Option (List ℚ) :=
  match events with
  | [] => some []
  | e0 :: rest =>
      let i : ℚ := (cfg.interval_seconds : ℚ)
      let sup : ℚ := rest.foldr max e0
      let mainFuel : ℕ := rest.length + ratBound ((sup + i - e0) / i) + 1
      let tFuel : ℕ := cfg.allowed_misses.toNat + ratBound ((now - e0) / i) + 1
      detectAuxNoGap cfg now ((e0 :: rest).getLastD 0) tFuel mainFuel rest e0 0 []

/-- The validated events of service `s`, in input order: exactly the
records `sort_events_by_service` files under key `s` before the
per-service sort/dedup pass. -/
def keyFilter (cfg : Config) (now : ℚ) (s : String) (events : List RawEvent) :
    List RawEvent :=
  events.filter (fun e => validate_event cfg now e && (e.serviceKey == s))

/-- Minimum of a list of rationals (`none` on the empty list). -/
def qmin : List ℚ → Option ℚ
  | [] => none
  | x :: xs =>
      match qmin xs with
      | none => some x
      | some m => some (min x m)

/-- The instant of the first (earliest) validated event of service `s`
in the input list, if any. -/
def minInstantOfService (cfg : Config) (now : ℚ) (events : List RawEvent)
    (s : String) : Option ℚ :=
  qmin ((keyFilter cfg now s events).map RawEvent.eventInstant)

/-- Invariant of the grouping fold: the accumulated association list has
pairwise-distinct keys, each group holds exactly the validated events of
its key seen so far (in order), absent keys have no validated events,
and no group is empty. -/
def GroupsInv (cfg : Config) (now : ℚ) (processed : List RawEvent)
    (m : List (String × List RawEvent)) : Prop :=
  (m.map Prod.fst).Nodup ∧
  (∀ p ∈ m, p.2 = keyFilter cfg now p.1 processed) ∧
  (∀ s : String, s ∉ m.map Prod.fst → keyFilter cfg now s processed = []) ∧
  (∀ p ∈ m, p.2 ≠ [])

/-! ## Theorems -/

/-- C7: Constructing a `HeartbeatMonitor` fails with a configuration
error if and only if some field is outside its stated range
(`interval_seconds` not in 1..3600, `allowed_misses` not in 1..10,
`tolerance` outside [0,1], `future_limit` negative, `gap_limit` < 1);
when every field is in range, construction succeeds. -/
theorem init_ok_iff_ranges (i a : ℤ) (t : ℚ) (f g : ℤ) :
    (∃ c, HeartbeatMonitor.init i a t f g = .ok c) ↔
      (0 < i ∧ i ≤ 3600 ∧ 0 < a ∧ a ≤ 10 ∧ 0 ≤ t ∧ t ≤ 1 ∧ 0 ≤ f ∧ 0 < g) := by
  constructor
  · rintro ⟨c, hc⟩
    unfold HeartbeatMonitor.init at hc
    split_ifs at hc with h1 h2 h3 h4 h5 h6 h7
    push_neg at h1 h2 h3 h4 h5 h6 h7
    exact ⟨h1, h2, h3, h4, h5.1, h5.2, h6, h7⟩
  · rintro ⟨hi, hi2, ha, ha2, ht1, ht2, hf, hg⟩
    refine ⟨⟨i, a, t, f, g⟩, ?_⟩
    unfold HeartbeatMonitor.init
    rw [if_neg (by omega), if_neg (by omega), if_neg (by omega), if_neg (by omega),
      if_neg (not_not_intro ⟨ht1, ht2⟩), if_neg (by omega), if_neg (by omega)]

/-- C8: `validate_event` never reads `future_limit` — its decision is
identical for any two values of that field — and a structurally valid
record is rejected exactly when its parsed instant is more than 24 hours
ahead of the injected wall-clock time. -/
theorem validate_event_future_limit_inert (cfg : Config) (fl' : ℤ) (now : ℚ) (e : RawEvent) :
    validate_event { cfg with future_limit := fl' } now e = validate_event cfg now e ∧
    (structurally_valid e = true → ∀ t : ℚ, e.parsedTs = some t →
      (validate_event cfg now e = false ↔ now + 86400 < t)) := by
  refine ⟨rfl, ?_⟩
  intro hs t ht
  obtain ⟨d, sv, ts⟩ := e
  simp only [structurally_valid, Bool.and_eq_true] at hs
  obtain ⟨⟨hd, hsv⟩, hts⟩ := hs
  cases d
  · simp at hd
  · match sv, hsv with
    | some (.vstr s), hsv =>
      match ts, hts with
      | some (some t'), _ =>
        simp only [RawEvent.parsedTs, Option.some.injEq] at ht
        subst ht
        simp only [Bool.and_eq_true, Bool.not_eq_true', decide_eq_true_eq] at hsv
        have h1 : ¬(pyStrip s = "") := by simpa using hsv.1
        have h2 : ¬(100 < (pyStrip s).length) := Nat.not_lt.mpr hsv.2
        show (if pyStrip s = "" then false
              else if 100 < (pyStrip s).length then false
              else if now + 86400 < t' then false else true) = false ↔ now + 86400 < t'
        rw [if_neg h1, if_neg h2]
        split_ifs with h <;> simp [h]

/-- Closed witness for `validate_event_future_limit_inert`: a concrete
record whose parsed instant is far in the future. -/
theorem validate_event_future_limit_inert_witness :
    validate_event { (⟨60, 3, 1/10, 999, 10⟩ : Config) with future_limit := 0 } 0
        ⟨true, some (.vstr "svc"), some (some 100000)⟩ =
      validate_event (⟨60, 3, 1/10, 999, 10⟩ : Config) 0
        ⟨true, some (.vstr "svc"), some (some 100000)⟩ ∧
    (validate_event (⟨60, 3, 1/10, 999, 10⟩ : Config) 0
        ⟨true, some (.vstr "svc"), some (some 100000)⟩ = false ↔
      (0 : ℚ) + 86400 < 100000) := by
  refine ⟨(validate_event_future_limit_inert _ 0 0 _).1, ?_⟩
  exact (validate_event_future_limit_inert ⟨60, 3, 1/10, 999, 10⟩ 0 0 _).2 (by decide) 100000 rfl

/-- With a non-negative interval and `gap_limit ≥ 1` the guard of the
large-gap branch is false at every iteration, so the loop with the
branch equals the loop with the branch deleted. -/
theorem detectAux_eq_nogap (cfg : Config) (now last : ℚ) (tfuel : ℕ)
    (hi : 0 ≤ cfg.interval_seconds) (hg : 1 ≤ cfg.gap_limit) :
    ∀ fuel rem cur misses acc,
      detectAux cfg now last tfuel fuel rem cur misses acc =
        detectAuxNoGap cfg now last tfuel fuel rem cur misses acc := by
  intro fuel
  induction fuel with
  | zero => intro rem cur misses acc; rfl
  | succ fuel ih =>
    intro rem cur misses acc
    have hguard : ¬ (((cfg.interval_seconds * cfg.gap_limit : ℤ) : ℚ) <
        cur + (cfg.interval_seconds : ℚ) - cur ∧ rem ≠ []) := by
      rintro ⟨hlt, -⟩
      rw [add_sub_cancel_left] at hlt
      have h1 : (0 : ℚ) ≤ (cfg.interval_seconds : ℚ) := by exact_mod_cast hi
      have h2 : (1 : ℚ) ≤ (cfg.gap_limit : ℚ) := by exact_mod_cast hg
      have : (cfg.interval_seconds : ℚ) ≤ ((cfg.interval_seconds * cfg.gap_limit : ℤ) : ℚ) := by
        push_cast
        nlinarith
      linarith
    rw [detectAux, detectAuxNoGap]
    simp only [if_neg hguard]
    split_ifs <;> first | rfl | exact ih _ _ _ _

/-- C2: for every timeline, every wall-clock time, and every
configuration with a positive `gapLimit` (and the non-negative interval
every `MonitorConfig` carries), the large-gap resynchronization branch of
`detect_missed_heartbeats` is never executed: deleting the branch does
not change the function.  The guard compares `next_expected -
current_expected`, which is structurally `interval`, against
`interval * gapLimit`. -/
theorem detect_gap_branch_unreachable (cfg : Config) (now : ℚ) (events : List ℚ)
    (hi : 0 ≤ cfg.interval_seconds) (hg : 1 ≤ cfg.gap_limit) :
    detect_missed_heartbeats cfg now events =
      detect_missed_heartbeats_nogap cfg now events := by
  unfold detect_missed_heartbeats detect_missed_heartbeats_nogap
  match events with
  | [] => rfl
  | e0 :: rest => exact detectAux_eq_nogap cfg now _ _ hi hg _ _ _ _ _

/-- Closed witness for `detect_gap_branch_unreachable` at the Scenario C
input (events two hours apart, `interval=60`, `gapLimit=10`). -/
theorem detect_gap_branch_unreachable_witness :
    detect_missed_heartbeats ⟨60, 3, 1/10, 300, 10⟩ 7500 [0, 7200] =
      detect_missed_heartbeats_nogap ⟨60, 3, 1/10, 300, 10⟩ 7500 [0, 7200] :=
  detect_gap_branch_unreachable ⟨60, 3, 1/10, 300, 10⟩ 7500 [0, 7200]
    (by decide) (by decide)

/-- C1 fails on the code: this perfectly on-time timeline (two events
exactly one interval apart) yields an alert when detection runs five
intervals after the last event — the trailing extrapolation emits it. -/
theorem exact_spacing_counterexample :
    Config.Valid ⟨60, 3, 1/10, 300, 10⟩ ∧
    List.Chain' (fun a b : ℚ => b = a + ((60 : ℤ) : ℚ)) [0, 60] ∧
    detect_missed_heartbeats ⟨60, 3, 1/10, 300, 10⟩ 360 [0, 60] = some [240] ∧
    detect_missed_heartbeats ⟨60, 3, 1/10, 300, 10⟩ 360 [0, 60] ≠ some [] := by
  refine ⟨by with_unfolding_all decide, ?_,
    by with_unfolding_all decide, by with_unfolding_all decide⟩
  refine List.chain'_pair.mpr ?_
  push_cast
  norm_num

/-- C5's tie-breaking clause fails on the code: `monitor_heartbeats`
sorts only by the `alert_at` key (Python's stable sort), so two alerts
with equal `alert_at` keep service-encounter order — here `"b"` before
`"a"` — instead of service-name order. -/
theorem alert_sort_tiebreak_counterexample :
    Config.Valid ⟨60, 1, 0, 300, 10⟩ ∧
    monitor_heartbeats ⟨60, 1, 0, 300, 10⟩ 0
        [⟨true, some (.vstr "b"), some (some 0)⟩, ⟨true, some (.vstr "a"), some (some 0)⟩]
      = some [⟨"b", 60⟩, ⟨"a", 60⟩] ∧
    ¬ ("b" ≤ "a") := by
  refine ⟨by with_unfolding_all decide, by with_unfolding_all decide, ?_⟩
  rw [String.le_iff_toList_le]
  decide

/-- C6's single-event clause fails on the code: with the valid
configuration `allowed_misses = 1`, a one-event timeline produces an
alert one interval after the event (the first expected slot counts as a
miss even at detection time `now = 0`). -/
theorem single_event_counterexample :
    Config.Valid ⟨60, 1, 0, 300, 10⟩ ∧
    detect_missed_heartbeats ⟨60, 1, 0, 300, 10⟩ 0 [0] = some [60] ∧
    detect_missed_heartbeats ⟨60, 1, 0, 300, 10⟩ 0 [0] ≠ some [] := by
  refine ⟨by with_unfolding_all decide, by with_unfolding_all decide,
    by with_unfolding_all decide⟩

theorem insertByKey_perm {α : Type} (key : α → ℚ) (x : α) (l : List α) :
    (insertByKey key x l).Perm (x :: l) := by
  induction l with
  | nil => rfl
  | cons y ys ih =>
    rw [insertByKey]
    split_ifs
    · exact ((ih.cons y).trans (List.Perm.swap x y ys))
    · rfl

theorem insertByKey_pairwise {α : Type} (key : α → ℚ) (x : α) (l : List α)
    (h : l.Pairwise (fun a b => key a ≤ key b)) :
    (insertByKey key x l).Pairwise (fun a b => key a ≤ key b) := by
  induction l with
  | nil => simp [insertByKey]
  | cons y ys ih =>
    rw [insertByKey]
    rw [List.pairwise_cons] at h
    split_ifs with hk
    · refine List.pairwise_cons.mpr ⟨?_, ih h.2⟩
      intro z hz
      rcases List.mem_cons.mp ((insertByKey_perm key x ys).mem_iff.mp hz) with hz | hz
      · subst hz; exact le_of_lt hk
      · exact h.1 z hz
    · refine List.pairwise_cons.mpr ⟨?_, List.pairwise_cons.mpr h⟩
      intro z hz
      rcases List.mem_cons.mp hz with hz | hz
      · subst hz; exact not_lt.mp hk
      · exact le_trans (not_lt.mp hk) (h.1 z hz)

theorem sortByKey_perm {α : Type} (key : α → ℚ) (l : List α) :
    (sortByKey key l).Perm l := by
  induction l with
  | nil => rfl
  | cons x xs ih => exact (insertByKey_perm key x (sortByKey key xs)).trans (ih.cons x)

theorem sortByKey_pairwise {α : Type} (key : α → ℚ) (l : List α) :
    (sortByKey key l).Pairwise (fun a b => key a ≤ key b) := by
  induction l with
  | nil => exact List.Pairwise.nil
  | cons x xs ih => exact insertByKey_pairwise key x _ ih

theorem sortByKey_sorted_eq {α : Type} (key : α → ℚ) (l : List α)
    (h : l.Pairwise (fun a b => key a ≤ key b)) : sortByKey key l = l := by
  induction l with
  | nil => rfl
  | cons x xs ih =>
    rw [List.pairwise_cons] at h
    rw [sortByKey, ih h.2]
    cases xs with
    | nil => rfl
    | cons y ys =>
      rw [insertByKey, if_neg (not_lt.mpr (h.1 y (List.mem_cons_self y ys)))]

/-- C5 fails only in its tie-breaking clause; the sortedness clause
holds: every list returned by `monitor_heartbeats` is sorted ascending
by `alert_at` (ties in whatever order the services were processed). -/
theorem monitor_alerts_sorted (cfg : Config) (now : ℚ) (events : List RawEvent)
    (res : List Alert) (h : monitor_heartbeats cfg now events = some res) :
    res.Pairwise (fun a b => a.alert_at ≤ b.alert_at) := by
  unfold monitor_heartbeats at h
  rcases Option.map_eq_some'.mp h with ⟨l, -, rfl⟩
  have := sortByKey_pairwise (fun a : Alert => (a.alert_at : ℚ)) l
  exact this.imp (fun hab => by exact_mod_cast hab)

/-- Closed witness for `monitor_alerts_sorted` at the two-service
concrete input. -/
theorem monitor_alerts_sorted_witness :
    List.Pairwise (fun a b : Alert => a.alert_at ≤ b.alert_at)
      [⟨"b", 60⟩, ⟨"a", 60⟩] :=
  monitor_alerts_sorted ⟨60, 1, 0, 300, 10⟩ 0
    [⟨true, some (.vstr "b"), some (some 0)⟩, ⟨true, some (.vstr "a"), some (some 0)⟩]
    [⟨"b", 60⟩, ⟨"a", 60⟩] (by with_unfolding_all decide)

theorem scanForHeartbeat_spec (tol : ℚ) : ∀ (l : List ℚ) (cur : ℚ),
    ∃ k, k ≤ l.length ∧ (scanForHeartbeat tol cur l).2.1 = l.drop k ∧
      ((scanForHeartbeat tol cur l).1 = true →
        1 ≤ k ∧ |(scanForHeartbeat tol cur l).2.2 - cur| ≤ tol) ∧
      ((scanForHeartbeat tol cur l).1 = false →
        (scanForHeartbeat tol cur l).2.2 = cur ∧
        ∀ t ∈ (l.drop k).head?, tol < t - cur) := by
  intro l
  induction l with
  | nil =>
    intro cur
    exact ⟨0, by simp [scanForHeartbeat]⟩
  | cons t rest ih =>
    intro cur
    rw [scanForHeartbeat]
    split_ifs with h1 h2
    · refine ⟨1, by simp, rfl, fun _ => ⟨le_refl 1, h1⟩, by simp⟩
    · refine ⟨0, Nat.zero_le _, rfl, by simp, fun _ => ⟨rfl, ?_⟩⟩
      intro t' ht'
      rw [List.drop_zero, List.head?_cons, Option.mem_def, Option.some.injEq] at ht'
      subst ht'
      exact h2
    · obtain ⟨k, hk, hdrop, htrue, hfalse⟩ := ih cur
      refine ⟨k + 1, by simpa using Nat.succ_le_succ hk, by simpa using hdrop,
        fun hf => ⟨Nat.le_add_left 1 k, (htrue hf).2⟩, fun hf => ⟨(hfalse hf).1, ?_⟩⟩
      simpa using (hfalse hf).2

theorem trailingAux_invariant (cfg : Config) (now : ℚ)
    (hi : 0 < (cfg.interval_seconds : ℚ)) :
    ∀ fuel cur misses acc l,
      acc.Pairwise (· < ·) → (∀ a ∈ acc, a ≤ cur) →
      trailingAux cfg now fuel cur misses acc = some l →
      l.Pairwise (· < ·) ∧
        ∀ a ∈ l, a ∈ acc ∨ cur + (cfg.interval_seconds : ℚ) ≤ a := by
  intro fuel
  induction fuel with
  | zero =>
    intro cur misses acc l hp hle h
    rw [trailingAux] at h
    split_ifs at h
    obtain rfl := Option.some.inj h
    exact ⟨hp, fun a ha => Or.inl ha⟩
  | succ fuel ih =>
    intro cur misses acc l hp hle h
    simp only [trailingAux] at h
    split_ifs at h with hc1 hc2 hc3
    · -- alert fired, recurse with reset counter and extended accumulator
      have hp' : (acc ++ [cur + (cfg.interval_seconds : ℚ)]).Pairwise (· < ·) := by
        rw [List.pairwise_append]
        refine ⟨hp, List.pairwise_singleton _ _, ?_⟩
        intro a ha b hb
        rw [List.mem_singleton] at hb
        subst hb
        exact lt_of_le_of_lt (hle a ha) (by linarith)
      have hle' : ∀ a ∈ acc ++ [cur + (cfg.interval_seconds : ℚ)],
          a ≤ cur + (cfg.interval_seconds : ℚ) := by
        intro a ha
        rcases List.mem_append.mp ha with ha | ha
        · exact le_trans (hle a ha) (by linarith)
        · rw [List.mem_singleton] at ha
          subst ha
          exact le_refl _
      obtain ⟨hpl, hbound⟩ := ih _ _ _ _ hp' hle' h
      refine ⟨hpl, ?_⟩
      intro a ha
      rcases hbound a ha with hmem | hge
      · rcases List.mem_append.mp hmem with hmem | hmem
        · exact Or.inl hmem
        · rw [List.mem_singleton] at hmem
          subst hmem
          exact Or.inr (le_refl _)
      · exact Or.inr (by linarith)
    · -- miss counted but threshold not reached, recurse
      have hle' : ∀ a ∈ acc, a ≤ cur + (cfg.interval_seconds : ℚ) :=
        fun a ha => le_trans (hle a ha) (by linarith)
      obtain ⟨hpl, hbound⟩ := ih _ _ _ _ hp hle' h
      refine ⟨hpl, ?_⟩
      intro a ha
      rcases hbound a ha with hmem | hge
      · exact Or.inl hmem
      · exact Or.inr (by linarith)
    · -- projected slot not yet due: loop stops
      obtain rfl := Option.some.inj h
      exact ⟨hp, fun a ha => Or.inl ha⟩
    · -- counter already at threshold: loop never runs
      obtain rfl := Option.some.inj h
      exact ⟨hp, fun a ha => Or.inl ha⟩

theorem gap_guard_false (cfg : Config) (cur : ℚ) (rem : List ℚ)
    (hgl : (cfg.interval_seconds : ℚ) ≤ ((cfg.interval_seconds * cfg.gap_limit : ℤ) : ℚ)) :
    ¬ (((cfg.interval_seconds * cfg.gap_limit : ℤ) : ℚ) <
        cur + (cfg.interval_seconds : ℚ) - cur ∧ rem ≠ []) := by
  rintro ⟨hlt, -⟩
  rw [add_sub_cancel_left] at hlt
  linarith

theorem detectAux_invariant (cfg : Config) (now last : ℚ) (tfuel : ℕ)
    (hi : 0 < (cfg.interval_seconds : ℚ))
    (hti : cfg.tolerance_seconds ≤ (cfg.interval_seconds : ℚ))
    (hgl : (cfg.interval_seconds : ℚ) ≤ ((cfg.interval_seconds * cfg.gap_limit : ℤ) : ℚ)) :
    ∀ fuel rem cur misses acc l,
      acc.Pairwise (· < ·) → (∀ a ∈ acc, a ≤ cur) →
      detectAux cfg now last tfuel fuel rem cur misses acc = some l →
      l.Pairwise (· < ·) ∧
        ∀ a ∈ l, a ∈ acc ∨ cur + (cfg.interval_seconds : ℚ) ≤ a := by
  intro fuel
  induction fuel with
  | zero => intro rem cur misses acc l _ _ h; simp [detectAux] at h
  | succ fuel ih =>
    intro rem cur misses acc l hp hle h
    obtain ⟨⟨found, rem1, cur1⟩, hs⟩ :
        ∃ s, scanForHeartbeat cfg.tolerance_seconds
          (cur + (cfg.interval_seconds : ℚ)) rem = s := ⟨_, rfl⟩
    obtain ⟨k, hk, hdrop, htrue, hfalse⟩ :=
      scanForHeartbeat_spec cfg.tolerance_seconds rem (cur + (cfg.interval_seconds : ℚ))
    simp only [hs] at hdrop htrue hfalse
    simp only [detectAux, hs, if_neg (gap_guard_false cfg cur rem hgl)] at h
    have hfinT : ∀ (cur1 : ℚ) (m2 : ℕ) (acc2 : List ℚ), acc2.Pairwise (· < ·) →
        (∀ a ∈ acc2, a ≤ cur1) →
        (∀ a ∈ acc2, a ∈ acc ∨ cur + (cfg.interval_seconds : ℚ) ≤ a) →
        cur ≤ cur1 →
        trailingAux cfg now tfuel cur1 m2 acc2 = some l →
        l.Pairwise (· < ·) ∧
          ∀ a ∈ l, a ∈ acc ∨ cur + (cfg.interval_seconds : ℚ) ≤ a := by
      intro cur1 m2 acc2 hp2 hle2 hmem2 hcur hif
      obtain ⟨hpl, hbound⟩ := trailingAux_invariant cfg now hi tfuel cur1 m2 acc2 l
        hp2 hle2 hif
      refine ⟨hpl, fun a ha => ?_⟩
      rcases hbound a ha with hm | hge
      · exact hmem2 a hm
      · exact Or.inr (by linarith)
    have hfinR : ∀ (rem1 : List ℚ) (cur1 : ℚ) (m2 : ℕ) (acc2 : List ℚ),
        acc2.Pairwise (· < ·) →
        (∀ a ∈ acc2, a ≤ cur1) →
        (∀ a ∈ acc2, a ∈ acc ∨ cur + (cfg.interval_seconds : ℚ) ≤ a) →
        cur ≤ cur1 →
        detectAux cfg now last tfuel fuel rem1 cur1 m2 acc2 = some l →
        l.Pairwise (· < ·) ∧
          ∀ a ∈ l, a ∈ acc ∨ cur + (cfg.interval_seconds : ℚ) ≤ a := by
      intro rem1 cur1 m2 acc2 hp2 hle2 hmem2 hcur hif
      obtain ⟨hpl, hbound⟩ := ih rem1 cur1 m2 acc2 l hp2 hle2 hif
      refine ⟨hpl, fun a ha => ?_⟩
      rcases hbound a ha with hm | hge
      · exact hmem2 a hm
      · exact Or.inr (by linarith)
    have hfinS : ∀ acc2 : List ℚ, acc2.Pairwise (· < ·) →
        (∀ a ∈ acc2, a ∈ acc ∨ cur + (cfg.interval_seconds : ℚ) ≤ a) →
        some acc2 = some l →
        l.Pairwise (· < ·) ∧
          ∀ a ∈ l, a ∈ acc ∨ cur + (cfg.interval_seconds : ℚ) ≤ a := by
      intro acc2 hp2 hmem2 hif
      obtain rfl := Option.some.inj hif
      exact ⟨hp2, hmem2⟩
    by_cases hfound : found = true
    · have hcur : cur ≤ cur1 := by
        have := (htrue hfound).2
        rw [abs_le] at this
        linarith [this.1]
      have hle1 : ∀ a ∈ acc, a ≤ cur1 := fun a ha => le_trans (hle a ha) hcur
      simp only [hfound, if_true] at h
      split_ifs at h
      · exact hfinT cur1 0 acc hp hle1 (fun a ha => Or.inl ha) hcur h
      · exact hfinS acc hp (fun a ha => Or.inl ha) h
      · exact hfinR rem1 cur1 0 acc hp hle1 (fun a ha => Or.inl ha) hcur h
    · rw [Bool.not_eq_true] at hfound
      obtain ⟨hcur1, -⟩ := hfalse hfound
      subst hcur1
      have hcur : cur ≤ cur + (cfg.interval_seconds : ℚ) := by linarith
      simp only [hfound, Bool.false_eq_true, if_false] at h
      by_cases halert : cfg.allowed_misses ≤ (misses : ℤ) + 1
      · simp only [if_pos halert] at h
        have hp2 : (acc ++ [cur + (cfg.interval_seconds : ℚ)]).Pairwise (· < ·) := by
          rw [List.pairwise_append]
          refine ⟨hp, List.pairwise_singleton _ _, ?_⟩
          intro a ha b hb
          rw [List.mem_singleton] at hb
          subst hb
          exact lt_of_le_of_lt (hle a ha) (by linarith)
        have hle2 : ∀ a ∈ acc ++ [cur + (cfg.interval_seconds : ℚ)],
            a ≤ cur + (cfg.interval_seconds : ℚ) := by
          intro a ha
          rcases List.mem_append.mp ha with ha | ha
          · exact le_trans (hle a ha) hcur
          · rw [List.mem_singleton] at ha
            subst ha
            exact le_refl _
        have hmem2 : ∀ a ∈ acc ++ [cur + (cfg.interval_seconds : ℚ)],
            a ∈ acc ∨ cur + (cfg.interval_seconds : ℚ) ≤ a := by
          intro a ha
          rcases List.mem_append.mp ha with ha | ha
          · exact Or.inl ha
          · rw [List.mem_singleton] at ha
            subst ha
            exact Or.inr (le_refl _)
        split_ifs at h
        · exact hfinT _ 0 _ hp2 hle2 hmem2 hcur h
        · exact hfinS _ hp2 hmem2 h
        · exact hfinR rem1 _ 0 _ hp2 hle2 hmem2 hcur h
      · simp only [if_neg halert] at h
        have hle2 : ∀ a ∈ acc, a ≤ cur + (cfg.interval_seconds : ℚ) :=
          fun a ha => le_trans (hle a ha) hcur
        split_ifs at h
        · exact hfinT _ (misses + 1) _ hp hle2 (fun a ha => Or.inl ha) hcur h
        · exact hfinS _ hp (fun a ha => Or.inl ha) h
        · exact hfinR rem1 _ (misses + 1) _ hp hle2 (fun a ha => Or.inl ha) hcur h

/-- C10: for every valid configuration, every wall-clock time, and every
timeline, the alert instants returned by `detect_missed_heartbeats` for
one service are strictly increasing (no duplicate `alertAt`, and
chronological order without any sort inside the detector). -/
theorem detect_alerts_strictly_increasing (cfg : Config) (now : ℚ)
    (events : List ℚ) (l : List ℚ) (hv : cfg.Valid)
    (h : detect_missed_heartbeats cfg now events = some l) :
    l.Pairwise (· < ·) := by
  obtain ⟨hv1, -, -, -, hv5, hv6, -, hv8⟩ := hv
  have hi : 0 < (cfg.interval_seconds : ℚ) := by exact_mod_cast hv1
  have hti : cfg.tolerance_seconds ≤ (cfg.interval_seconds : ℚ) := by
    rw [Config.tolerance_seconds]
    nlinarith
  have hgl : (cfg.interval_seconds : ℚ) ≤ ((cfg.interval_seconds * cfg.gap_limit : ℤ) : ℚ) := by
    have h1 : (1 : ℚ) ≤ (cfg.gap_limit : ℚ) := by exact_mod_cast hv8
    push_cast
    nlinarith
  match events with
  | [] =>
    obtain rfl := Option.some.inj h
    exact List.Pairwise.nil
  | e0 :: rest =>
    exact (detectAux_invariant cfg now _ _ hi hti hgl _ rest e0 0 [] l
      List.Pairwise.nil (by simp) h).1

/-- Closed witness for `detect_alerts_strictly_increasing`: the Scenario
A style input (3-minute gap) at a valid configuration. -/
theorem detect_alerts_strictly_increasing_witness :
    List.Pairwise ((· < ·) : ℚ → ℚ → Prop) [300] :=
  detect_alerts_strictly_increasing ⟨60, 3, 1/10, 300, 10⟩ 360
    [0, 60, 120, 360] [300] (by with_unfolding_all decide)
    (by with_unfolding_all decide)

theorem config_valid_facts {cfg : Config} (h : cfg.Valid) :
    0 < (cfg.interval_seconds : ℚ) ∧ 0 ≤ cfg.tolerance_seconds ∧
    cfg.tolerance_seconds ≤ (cfg.interval_seconds : ℚ) ∧
    (cfg.interval_seconds : ℚ) ≤ ((cfg.interval_seconds * cfg.gap_limit : ℤ) : ℚ) ∧
    0 ≤ cfg.allowed_misses := by
  obtain ⟨h1, -, h3, -, h5, h6, -, h8⟩ := h
  have hi : 0 < (cfg.interval_seconds : ℚ) := by exact_mod_cast h1
  have hg : (1 : ℚ) ≤ (cfg.gap_limit : ℚ) := by exact_mod_cast h8
  refine ⟨hi, ?_, ?_, ?_, by omega⟩
  · rw [Config.tolerance_seconds]; nlinarith
  · rw [Config.tolerance_seconds]; nlinarith
  · push_cast; nlinarith

theorem trailingAux_no_alert (cfg : Config) (now : ℚ)
    (ha0 : 0 ≤ cfg.allowed_misses) :
    ∀ fuel (cur : ℚ) (misses : ℕ) (acc : List ℚ),
      now ≤ cur + ((cfg.allowed_misses - (misses : ℤ) : ℤ) : ℚ) * (cfg.interval_seconds : ℚ)
          + cfg.tolerance_seconds →
      cfg.allowed_misses.toNat - misses ≤ fuel →
      trailingAux cfg now fuel cur misses acc = some acc := by
  intro fuel
  induction fuel with
  | zero =>
    intro cur misses acc hnow hfuel
    have : ¬ ((misses : ℤ) < cfg.allowed_misses) := by omega
    rw [trailingAux, if_neg this]
  | succ fuel ih =>
    intro cur misses acc hnow hfuel
    by_cases hc : (misses : ℤ) < cfg.allowed_misses
    · simp only [trailingAux, if_pos hc]
      by_cases hd : cfg.tolerance_seconds <
          now - (cur + (cfg.interval_seconds : ℚ))
      · rw [if_pos hd]
        have halert : ¬ (cfg.allowed_misses ≤ (misses : ℤ) + 1) := by
          intro hle
          have heq : cfg.allowed_misses - (misses : ℤ) = 1 := by omega
          rw [heq] at hnow
          push_cast at hnow
          linarith
        rw [if_neg halert]
        refine ih _ _ _ ?_ (by omega)
        have : ((cfg.allowed_misses - ((misses : ℕ) + 1 : ℕ) : ℤ) : ℚ) =
            ((cfg.allowed_misses - (misses : ℤ) : ℤ) : ℚ) - 1 := by
          push_cast
          ring
        rw [this]
        ring_nf
        ring_nf at hnow
        linarith
      · rw [if_neg hd]
    · rw [trailingAux, if_neg hc]

theorem detectAux_grid (cfg : Config) (now last : ℚ) (tfuel : ℕ)
    (hi : 0 < (cfg.interval_seconds : ℚ)) (ht0 : 0 ≤ cfg.tolerance_seconds)
    (hgl : (cfg.interval_seconds : ℚ) ≤ ((cfg.interval_seconds * cfg.gap_limit : ℤ) : ℚ))
    (ha0 : 0 ≤ cfg.allowed_misses)
    (htf : cfg.allowed_misses.toNat ≤ tfuel) :
    ∀ (rem : List ℚ) (cur : ℚ) (fuel : ℕ), rem ≠ [] → rem.length + 1 ≤ fuel →
      List.Chain' (fun a b => b = a + (cfg.interval_seconds : ℚ)) (cur :: rem) →
      last = rem.getLastD cur →
      (now ≤ last + (cfg.allowed_misses : ℚ) * (cfg.interval_seconds : ℚ)
          + cfg.tolerance_seconds
        ∨ ((cfg.interval_seconds * cfg.gap_limit : ℤ) : ℚ) ≤ now - last) →
      detectAux cfg now last tfuel fuel rem cur 0 [] = some [] := by
  intro rem
  induction rem with
  | nil => intro cur fuel hne; exact absurd rfl hne
  | cons r rest2 ih =>
    intro cur fuel hne hfuel hchain hlast hnow
    obtain ⟨hr, hchain2⟩ := List.chain'_cons.mp hchain
    subst hr
    obtain ⟨f, rfl⟩ : ∃ f, fuel = f + 1 := by
      cases fuel with
      | zero => omega
      | succ f => exact ⟨f, rfl⟩
    have hscan : scanForHeartbeat cfg.tolerance_seconds
        (cur + (cfg.interval_seconds : ℚ)) ((cur + (cfg.interval_seconds : ℚ)) :: rest2) =
        (true, rest2, cur + (cfg.interval_seconds : ℚ)) := by
      rw [scanForHeartbeat, if_pos (by simpa using ht0)]
    simp only [detectAux, hscan,
      if_neg (gap_guard_false cfg cur ((cur + (cfg.interval_seconds : ℚ)) :: rest2) hgl),
      if_true]
    cases rest2 with
    | nil =>
      have hlast' : last = cur + (cfg.interval_seconds : ℚ) := by simpa using hlast
      subst hlast'
      rw [if_pos rfl]
      by_cases hst : now - (cur + (cfg.interval_seconds : ℚ)) <
          ((cfg.interval_seconds * cfg.gap_limit : ℤ) : ℚ)
      · rw [if_pos hst]
        rcases hnow with hnow | hnow
        · refine trailingAux_no_alert cfg now ha0 tfuel _ 0 [] ?_ (by omega)
          push_cast
          linarith
        · linarith
      · rw [if_neg hst]
    | cons r2 rest3 =>
      rw [if_neg (by simp)]
      refine ih (cur + (cfg.interval_seconds : ℚ)) f (by simp) (by simpa using hfuel)
        hchain2 (by simpa using hlast) hnow

theorem detectAux_nil_step (cfg : Config) (now last : ℚ) (tfuel fuel : ℕ)
    (cur : ℚ) (misses : ℕ) (acc : List ℚ)
    (hgl : (cfg.interval_seconds : ℚ) ≤ ((cfg.interval_seconds * cfg.gap_limit : ℤ) : ℚ))
    (halert : ¬ (cfg.allowed_misses ≤ (misses : ℤ) + 1)) :
    detectAux cfg now last tfuel (fuel + 1) [] cur misses acc =
      if now - last < ((cfg.interval_seconds * cfg.gap_limit : ℤ) : ℚ) then
        trailingAux cfg now tfuel (cur + (cfg.interval_seconds : ℚ)) (misses + 1) acc
      else some acc := by
  have hscan : scanForHeartbeat cfg.tolerance_seconds
      (cur + (cfg.interval_seconds : ℚ)) [] =
      (false, [], cur + (cfg.interval_seconds : ℚ)) := rfl
  simp only [detectAux, hscan,
    if_neg (gap_guard_false cfg cur ([] : List ℚ) hgl), if_neg halert]
  simp

theorem detect_grid_core (cfg : Config) (now : ℚ) (events : List ℚ) (hv : cfg.Valid)
    (hne : events ≠ [])
    (hchain : List.Chain' (fun a b => b = a + (cfg.interval_seconds : ℚ)) events)
    (hsize : 2 ≤ events.length ∨ 2 ≤ cfg.allowed_misses)
    (hnow : now ≤ events.getLastD 0
          + (cfg.allowed_misses : ℚ) * (cfg.interval_seconds : ℚ) + cfg.tolerance_seconds
        ∨ ((cfg.interval_seconds * cfg.gap_limit : ℤ) : ℚ) ≤ now - events.getLastD 0) :
    detect_missed_heartbeats cfg now events = some [] := by
  obtain ⟨hi, ht0, hti, hgl, ha0⟩ := config_valid_facts hv
  match events with
  | [] => exact absurd rfl hne
  | [e0] =>
    have h2 : 2 ≤ cfg.allowed_misses := by
      rcases hsize with hs | hs
      · simp at hs
      · exact hs
    have halert : ¬ (cfg.allowed_misses ≤ (((0 : ℕ) : ℤ)) + 1) := by
      push_cast
      omega
    have hunf : detect_missed_heartbeats cfg now [e0] =
        detectAux cfg now e0
          (cfg.allowed_misses.toNat + ratBound ((now - e0) / (cfg.interval_seconds : ℚ)) + 1)
          (0 + ratBound ((e0 + (cfg.interval_seconds : ℚ) - e0) / (cfg.interval_seconds : ℚ)) + 1)
          [] e0 0 [] := rfl
    rw [hunf, detectAux_nil_step cfg now e0 _ _ e0 0 [] hgl halert]
    rw [show ([e0] : List ℚ).getLastD 0 = e0 from rfl] at hnow
    by_cases hst : now - e0 < ((cfg.interval_seconds * cfg.gap_limit : ℤ) : ℚ)
    · rw [if_pos hst]
      rcases hnow with hnow | hnow
      · refine trailingAux_no_alert cfg now ha0 _ _ 1 [] ?_ (by omega)
        push_cast
        linarith
      · linarith
    · rw [if_neg hst]
  | e0 :: r :: rest2 =>
    have hunf : detect_missed_heartbeats cfg now (e0 :: r :: rest2) =
        detectAux cfg now ((r :: rest2).getLastD e0)
          (cfg.allowed_misses.toNat + ratBound ((now - e0) / (cfg.interval_seconds : ℚ)) + 1)
          ((r :: rest2).length
            + ratBound (((r :: rest2).foldr max e0 + (cfg.interval_seconds : ℚ) - e0)
              / (cfg.interval_seconds : ℚ)) + 1)
          (r :: rest2) e0 0 [] := rfl
    rw [hunf]
    refine detectAux_grid cfg now _ _ hi ht0 hgl ha0 (by omega) (r :: rest2) e0 _
      (by simp) (by omega) hchain rfl ?_
    exact hnow

/-- C1 as amended: a perfectly on-time timeline (consecutive instants
exactly `interval` apart) produces no alert, provided the timeline has
at least two events or `allowedMisses ≥ 2`, and the wall-clock time
either satisfies `now ≤ last + allowedMisses*interval +
toleranceDuration` (so the trailing projection stops before the
threshold) or is at least `interval*gapLimit` past the last event (the
service is judged stale and no trailing projection runs).  Without the
condition on `now` the claim is false — see
`exact_spacing_counterexample`. -/
theorem detect_exact_spacing_no_alert (cfg : Config) (now : ℚ) (events : List ℚ)
    (hv : cfg.Valid) (hne : events ≠ [])
    (hchain : List.Chain' (fun a b => b = a + (cfg.interval_seconds : ℚ)) events)
    (hsize : 2 ≤ events.length ∨ 2 ≤ cfg.allowed_misses)
    (hnow : now ≤ events.getLastD 0
          + (cfg.allowed_misses : ℚ) * (cfg.interval_seconds : ℚ) + cfg.tolerance_seconds
        ∨ ((cfg.interval_seconds * cfg.gap_limit : ℤ) : ℚ) ≤ now - events.getLastD 0) :
    detect_missed_heartbeats cfg now events = some [] :=
  detect_grid_core cfg now events hv hne hchain hsize hnow

/-- Closed witness for `detect_exact_spacing_no_alert`: two on-time
events, detection one interval plus a few seconds after the last. -/
theorem detect_exact_spacing_no_alert_witness :
    detect_missed_heartbeats ⟨60, 3, 1/10, 300, 10⟩ 66 [0, 60] = some [] :=
  detect_exact_spacing_no_alert ⟨60, 3, 1/10, 300, 10⟩ 66 [0, 60]
    (by with_unfolding_all decide) (by simp)
    (List.chain'_pair.mpr (by push_cast; norm_num))
    (Or.inl (by simp))
    (Or.inl (by with_unfolding_all decide))

/-- C6 as amended: an empty input list always yields an empty alert
list; a timeline with exactly one event yields an empty alert list
provided `allowedMisses ≥ 2` and `now` either satisfies
`now ≤ t0 + allowedMisses*interval + toleranceDuration` or is at least
`interval*gapLimit` past the event.  With `allowedMisses = 1` (a valid
configuration) the single-event case is false — see
`single_event_counterexample`. -/
theorem empty_and_single_event_no_alert (cfg : Config) (now t0 : ℚ)
    (hv : cfg.Valid) (h2 : 2 ≤ cfg.allowed_misses)
    (hnow : now ≤ t0 + (cfg.allowed_misses : ℚ) * (cfg.interval_seconds : ℚ)
          + cfg.tolerance_seconds
        ∨ ((cfg.interval_seconds * cfg.gap_limit : ℤ) : ℚ) ≤ now - t0) :
    monitor_heartbeats cfg now [] = some [] ∧
    detect_missed_heartbeats cfg now [t0] = some [] := by
  constructor
  · rfl
  · refine detect_grid_core cfg now [t0] hv (by simp) (by simp) (Or.inr h2) ?_
    simpa [List.getLastD] using hnow

/-- Closed witness for `empty_and_single_event_no_alert`. -/
theorem empty_and_single_event_no_alert_witness :
    monitor_heartbeats ⟨60, 3, 1/10, 300, 10⟩ 30 [] = some [] ∧
    detect_missed_heartbeats ⟨60, 3, 1/10, 300, 10⟩ 30 [0] = some [] :=
  empty_and_single_event_no_alert ⟨60, 3, 1/10, 300, 10⟩ 30 0
    (by with_unfolding_all decide) (by decide)
    (Or.inl (by with_unfolding_all decide))

theorem ceil_toNat_le_ratBound (q : ℚ) : (⌈q⌉).toNat ≤ ratBound q := by
  rw [ratBound]
  by_cases hq : q ≤ 0
  · have : ⌈q⌉ ≤ 0 := by
      calc ⌈q⌉ ≤ ⌈(0 : ℚ)⌉ := Int.ceil_mono hq
        _ = 0 := Int.ceil_zero
    omega
  · push_neg at hq
    have hden : (1 : ℚ) ≤ (q.den : ℚ) := by exact_mod_cast q.den_pos
    have hnum : q ≤ (q.num : ℚ) := by
      have hden0 : ((q.den : ℚ)) ≠ 0 := by positivity
      have h1 : (q.num : ℚ) = q * (q.den : ℚ) :=
        (div_eq_iff hden0).mp (Rat.num_div_den q)
      nlinarith
    have h2 : ⌈q⌉ ≤ q.num := by
      calc ⌈q⌉ ≤ ⌈(q.num : ℚ)⌉ := Int.ceil_mono hnum
        _ = q.num := Int.ceil_intCast q.num
    omega

theorem trailingAux_isSome (cfg : Config) (now : ℚ)
    (hi : 0 < (cfg.interval_seconds : ℚ)) :
    ∀ fuel (cur : ℚ) (misses : ℕ) (acc : List ℚ),
      (⌈(now - cfg.tolerance_seconds - cur) / (cfg.interval_seconds : ℚ)⌉).toNat + 1 ≤ fuel →
      (trailingAux cfg now fuel cur misses acc).isSome = true := by
  intro fuel
  induction fuel with
  | zero => intro cur misses acc h; omega
  | succ fuel ih =>
    intro cur misses acc h
    simp only [trailingAux]
    split_ifs with hc1 hc2 hc3
    all_goals try simp
    all_goals {
      apply ih
      have hx : (1 : ℚ) <
          (now - cfg.tolerance_seconds - cur) / (cfg.interval_seconds : ℚ) := by
        rw [lt_div_iff hi]
        linarith
      have hc : 2 ≤ ⌈(now - cfg.tolerance_seconds - cur) / (cfg.interval_seconds : ℚ)⌉ := by
        have := Int.lt_ceil.mpr (show ((1 : ℤ) : ℚ) <
          (now - cfg.tolerance_seconds - cur) / (cfg.interval_seconds : ℚ) by exact_mod_cast hx)
        omega
      have heq : (now - cfg.tolerance_seconds - (cur + (cfg.interval_seconds : ℚ)))
            / (cfg.interval_seconds : ℚ) =
          (now - cfg.tolerance_seconds - cur) / (cfg.interval_seconds : ℚ) - ((1 : ℤ) : ℚ) := by
        push_cast
        field_simp
        ring
      rw [heq, Int.ceil_sub_int]
      omega
    }

theorem le_foldr_max (e0 : ℚ) : ∀ (l : List ℚ), ∀ t ∈ l, t ≤ l.foldr max e0 := by
  intro l
  induction l with
  | nil => intro t ht; simp at ht
  | cons r rr ih =>
    intro t ht
    rcases List.mem_cons.mp ht with rfl | ht2
    · exact le_max_left _ _
    · exact le_trans (ih t ht2) (le_max_right _ _)

theorem detectAux_isSome (cfg : Config) (now last sup e0 : ℚ)
    (hi : 0 < (cfg.interval_seconds : ℚ)) (ht0 : 0 ≤ cfg.tolerance_seconds)
    (hti : cfg.tolerance_seconds ≤ (cfg.interval_seconds : ℚ))
    (hgl : (cfg.interval_seconds : ℚ) ≤ ((cfg.interval_seconds * cfg.gap_limit : ℤ) : ℚ))
    (tfuel : ℕ)
    (htf : (⌈(now - e0) / (cfg.interval_seconds : ℚ)⌉).toNat + 1 ≤ tfuel) :
    ∀ fuel rem (cur : ℚ) (misses : ℕ) (acc : List ℚ),
      (∀ t ∈ rem, t ≤ sup) → e0 ≤ cur →
      rem.length + (⌈(sup + (cfg.interval_seconds : ℚ) - cur)
          / (cfg.interval_seconds : ℚ)⌉).toNat + 1 ≤ fuel →
      (detectAux cfg now last tfuel fuel rem cur misses acc).isSome = true := by
  intro fuel
  induction fuel with
  | zero => intro rem cur misses acc _ _ hb; omega
  | succ fuel ih =>
    intro rem cur misses acc hsup hcur hb
    obtain ⟨⟨found, rem1, cur1⟩, hs⟩ :
        ∃ s, scanForHeartbeat cfg.tolerance_seconds
          (cur + (cfg.interval_seconds : ℚ)) rem = s := ⟨_, rfl⟩
    obtain ⟨k, hk, hdrop, htrue, hfalse⟩ :=
      scanForHeartbeat_spec cfg.tolerance_seconds rem (cur + (cfg.interval_seconds : ℚ))
    simp only [hs] at hdrop htrue hfalse
    have hcc : cur ≤ cur1 := by
      by_cases hf : found = true
      · have h2 := (htrue hf).2
        rw [abs_le] at h2
        linarith [h2.1]
      · rw [Bool.not_eq_true] at hf
        rw [(hfalse hf).1]
        linarith
    have hcc0 : e0 ≤ cur1 := le_trans hcur hcc
    have htrail : ∀ (m2 : ℕ) (acc2 : List ℚ),
        (trailingAux cfg now tfuel cur1 m2 acc2).isSome = true := by
      intro m2 acc2
      apply trailingAux_isSome cfg now hi
      have hle : ⌈(now - cfg.tolerance_seconds - cur1) / (cfg.interval_seconds : ℚ)⌉ ≤
          ⌈(now - e0) / (cfg.interval_seconds : ℚ)⌉ :=
        Int.ceil_mono ((div_le_div_right hi).mpr (by linarith))
      omega
    have hrec : rem1 ≠ [] → ∀ (m2 : ℕ) (acc2 : List ℚ),
        (detectAux cfg now last tfuel fuel rem1 cur1 m2 acc2).isSome = true := by
      intro hne1 m2 acc2
      apply ih rem1 cur1 _ _ (fun t ht => hsup t (List.drop_subset k rem (hdrop ▸ ht))) hcc0
      have hmono : ⌈(sup + (cfg.interval_seconds : ℚ) - cur1) / (cfg.interval_seconds : ℚ)⌉ ≤
          ⌈(sup + (cfg.interval_seconds : ℚ) - cur) / (cfg.interval_seconds : ℚ)⌉ :=
        Int.ceil_mono ((div_le_div_right hi).mpr (by linarith))
      by_cases hkpos : 1 ≤ k
      · have hlen : rem1.length ≤ rem.length - k := by
          rw [hdrop, List.length_drop]
        omega
      · -- no event consumed: the expected clock advanced one interval
        have hk0 : k = 0 := by omega
        subst hk0
        have hfound : found = false := by
          by_cases hf : found = true
          · exact absurd (htrue hf).1 (by omega)
          · exact Bool.not_eq_true found |>.mp hf
        obtain ⟨hcur1, hhead⟩ := hfalse hfound
        rw [List.drop_zero] at hdrop
        simp only [List.drop_zero] at hhead
        have hne2 : rem ≠ [] := by
          rw [← hdrop]
          exact hne1
        obtain ⟨h, rr, hrem⟩ : ∃ h rr, rem = h :: rr := by
          cases rem with
          | nil => exact absurd rfl hne2
          | cons h rr => exact ⟨h, rr, rfl⟩
        subst hrem
        · have hh : cfg.tolerance_seconds < h - (cur + (cfg.interval_seconds : ℚ)) :=
            hhead h (by simp)
          have hhsup : h ≤ sup := hsup h (by simp)
          have hbig : (2 : ℚ) <
              (sup + (cfg.interval_seconds : ℚ) - cur) / (cfg.interval_seconds : ℚ) := by
            rw [lt_div_iff₀ hi]
            linarith
          have hc2 : 3 ≤ ⌈(sup + (cfg.interval_seconds : ℚ) - cur)
              / (cfg.interval_seconds : ℚ)⌉ := by
            have := Int.lt_ceil.mpr (show ((2 : ℤ) : ℚ) <
              (sup + (cfg.interval_seconds : ℚ) - cur) / (cfg.interval_seconds : ℚ) by
                exact_mod_cast hbig)
            omega
          have heq : (sup + (cfg.interval_seconds : ℚ) - (cur + (cfg.interval_seconds : ℚ)))
                / (cfg.interval_seconds : ℚ) =
              (sup + (cfg.interval_seconds : ℚ) - cur) / (cfg.interval_seconds : ℚ)
                - ((1 : ℤ) : ℚ) := by
            push_cast
            field_simp
            ring
          rw [hdrop, hcur1, heq, Int.ceil_sub_int]
          have hb2 := hb
          simp only [List.length_cons] at hb2
          simp only [List.length_cons]
          omega
    simp only [detectAux, hs, if_neg (gap_guard_false cfg cur rem hgl)]
    split_ifs <;> first
      | exact htrail _ _
      | exact hrec (by assumption) _ _
      | simp

/-- C3: for every valid configuration, every wall-clock time, and every
finite timeline (the Scenario C input included), the detector's loops
terminate: `detect_missed_heartbeats` returns a list (the fuel supplied
by the wrapper is never exhausted). -/
theorem detect_terminates (cfg : Config) (now : ℚ) (events : List ℚ)
    (hv : cfg.Valid) :
    (detect_missed_heartbeats cfg now events).isSome = true := by
  obtain ⟨hi, ht0, hti, hgl, ha0⟩ := config_valid_facts hv
  match events with
  | [] => rfl
  | e0 :: rest =>
    have hunf : detect_missed_heartbeats cfg now (e0 :: rest) =
        detectAux cfg now ((e0 :: rest).getLastD 0)
          (cfg.allowed_misses.toNat + ratBound ((now - e0) / (cfg.interval_seconds : ℚ)) + 1)
          (rest.length + ratBound ((rest.foldr max e0 + (cfg.interval_seconds : ℚ) - e0)
            / (cfg.interval_seconds : ℚ)) + 1)
          rest e0 0 [] := rfl
    rw [hunf]
    refine detectAux_isSome cfg now _ (rest.foldr max e0) e0 hi ht0 hti hgl _
      (by have := ceil_toNat_le_ratBound ((now - e0) / (cfg.interval_seconds : ℚ)); omega)
      _ rest e0 0 [] (le_foldr_max e0 rest) (le_refl e0) ?_
    have := ceil_toNat_le_ratBound ((rest.foldr max e0 + (cfg.interval_seconds : ℚ) - e0)
      / (cfg.interval_seconds : ℚ))
    omega

/-- Closed witness for `detect_terminates`: the Scenario C input, two
events two hours apart with `interval=60`, `gapLimit=10`,
`allowedMisses=3`. -/
theorem detect_terminates_witness :
    (detect_missed_heartbeats ⟨60, 3, 1/10, 300, 10⟩ 7200 [0, 7200]).isSome = true :=
  detect_terminates ⟨60, 3, 1/10, 300, 10⟩ 7200 [0, 7200] (by with_unfolding_all decide)

theorem dedupByKey_sublist {α : Type} (key : α → ℚ) :
    ∀ (seen : List ℚ) (l : List α), (dedupByKey key seen l).Sublist l := by
  intro seen l
  induction l generalizing seen with
  | nil => exact List.Sublist.refl []
  | cons x xs ih =>
    rw [dedupByKey]
    split_ifs
    · exact (ih seen).cons x
    · exact (ih (key x :: seen)).cons₂ x

theorem dedupByKey_keys_nodup {α : Type} (key : α → ℚ) :
    ∀ (seen : List ℚ) (l : List α),
      ((dedupByKey key seen l).map key).Nodup ∧
      ∀ x ∈ dedupByKey key seen l, key x ∉ seen := by
  intro seen l
  induction l generalizing seen with
  | nil => exact ⟨List.nodup_nil, by simp [dedupByKey]⟩
  | cons x xs ih =>
    rw [dedupByKey]
    split_ifs with hx
    · exact ih seen
    · obtain ⟨hnd, hout⟩ := ih (key x :: seen)
      constructor
      · rw [List.map_cons, List.nodup_cons]
        exact ⟨fun hmem => by
          obtain ⟨y, hy, hky⟩ := List.mem_map.mp hmem
          exact hout y hy (hky ▸ List.mem_cons_self _ _), hnd⟩
      · intro z hz
        rcases List.mem_cons.mp hz with rfl | hz2
        · exact hx
        · exact fun hmem => hout z hz2 (List.mem_cons_of_mem _ hmem)

theorem dedupByKey_key_surj {α : Type} (key : α → ℚ) :
    ∀ (seen : List ℚ) (l : List α) (x : α), x ∈ l → key x ∉ seen →
      ∃ y ∈ dedupByKey key seen l, key y = key x := by
  intro seen l
  induction l generalizing seen with
  | nil => intro x hx; simp at hx
  | cons z zs ih =>
    intro x hx hseen
    rw [dedupByKey]
    rcases List.mem_cons.mp hx with rfl | hx2
    · rw [if_neg hseen]
      exact ⟨x, List.mem_cons_self _ _, rfl⟩
    · split_ifs with hz
      · exact ih seen x hx2 hseen
      · by_cases hkey : key x = key z
        · exact ⟨z, List.mem_cons_self _ _, hkey.symm⟩
        · obtain ⟨y, hy, hky⟩ := ih (key z :: seen) x hx2 (by
            intro hmem
            rcases List.mem_cons.mp hmem with heq | hmem2
            · exact hkey heq
            · exact hseen hmem2)
          exact ⟨y, List.mem_cons_of_mem _ hy, hky⟩

theorem dedupByKey_eq_self {α : Type} (key : α → ℚ) :
    ∀ (seen : List ℚ) (l : List α), (l.map key).Nodup →
      (∀ x ∈ l, key x ∉ seen) → dedupByKey key seen l = l := by
  intro seen l
  induction l generalizing seen with
  | nil => intro _ _; rfl
  | cons x xs ih =>
    intro hnd hout
    rw [List.map_cons, List.nodup_cons] at hnd
    rw [dedupByKey, if_neg (hout x (List.mem_cons_self _ _))]
    congr 1
    refine ih (key x :: seen) hnd.2 ?_
    intro z hz hmem
    rcases List.mem_cons.mp hmem with heq | hmem2
    · exact hnd.1 (heq ▸ List.mem_map_of_mem key hz)
    · exact hout z (List.mem_cons_of_mem _ hz) hmem2

theorem dedupByKey_ne_nil {α : Type} (key : α → ℚ) (x : α) (xs : List α) :
    dedupByKey key [] (x :: xs) ≠ [] := by
  rw [dedupByKey]
  simp

theorem insertEvent_map_fst (k : String) (e : RawEvent) :
    ∀ m : List (String × List RawEvent),
      (insertEvent k e m).map Prod.fst =
        if k ∈ m.map Prod.fst then m.map Prod.fst else m.map Prod.fst ++ [k] := by
  intro m
  induction m with
  | nil => simp [insertEvent]
  | cons p rest ih =>
    obtain ⟨k', l⟩ := p
    by_cases hk : k' = k
    · subst hk
      rw [insertEvent, if_pos rfl]
      simp
    · rw [insertEvent, if_neg hk]
      by_cases hmem : k ∈ rest.map Prod.fst
      · simp only [List.map_cons, ih, if_pos hmem]
        rw [if_pos (by simp [hmem])]
      · simp only [List.map_cons, ih, if_neg hmem]
        rw [if_neg]
        · simp
        · intro hin
          rcases List.mem_cons.mp hin with heq | hin2
          · exact hk heq.symm
          · exact hmem hin2

theorem insertEvent_mem_cases (k : String) (e : RawEvent) :
    ∀ (m : List (String × List RawEvent)), (m.map Prod.fst).Nodup →
      ∀ p ∈ insertEvent k e m,
        (p ∈ m ∧ p.1 ≠ k) ∨ (∃ l, (k, l) ∈ m ∧ p = (k, l ++ [e])) ∨
        (k ∉ m.map Prod.fst ∧ p = (k, [e])) := by
  intro m
  induction m with
  | nil =>
    intro _ p hp
    rw [insertEvent, List.mem_singleton] at hp
    exact Or.inr (Or.inr ⟨by simp, hp⟩)
  | cons q rest ih =>
    intro hnd p hp
    obtain ⟨k', l⟩ := q
    rw [List.map_cons, List.nodup_cons] at hnd
    rw [insertEvent] at hp
    split_ifs at hp with hk
    · subst hk
      rcases List.mem_cons.mp hp with rfl | hp2
      · exact Or.inr (Or.inl ⟨l, List.mem_cons_self _ _, rfl⟩)
      · exact Or.inl ⟨List.mem_cons_of_mem _ hp2,
          fun hpk => hnd.1 (List.mem_map.mpr ⟨p, hp2, hpk⟩)⟩
    · rcases List.mem_cons.mp hp with rfl | hp2
      · exact Or.inl ⟨List.mem_cons_self _ _, fun h => hk h⟩
      · rcases ih hnd.2 p hp2 with ⟨hm, hne⟩ | ⟨l', hl', hpe⟩ | ⟨hnot, hpe⟩
        · exact Or.inl ⟨List.mem_cons_of_mem _ hm, hne⟩
        · exact Or.inr (Or.inl ⟨l', List.mem_cons_of_mem _ hl', hpe⟩)
        · refine Or.inr (Or.inr ⟨?_, hpe⟩)
          intro hmem
          rw [List.map_cons] at hmem
          rcases List.mem_cons.mp hmem with heq | hmem2
          · exact hk heq.symm
          · exact hnot hmem2

theorem keyFilter_append_single (cfg : Config) (now : ℚ) (s : String)
    (processed : List RawEvent) (e : RawEvent) :
    keyFilter cfg now s (processed ++ [e]) =
      keyFilter cfg now s processed ++
        (if validate_event cfg now e = true ∧ e.serviceKey = s then [e] else []) := by
  rw [keyFilter, keyFilter, List.filter_append]
  congr 1
  by_cases hv : validate_event cfg now e = true
  · by_cases hs : e.serviceKey = s
    · rw [if_pos ⟨hv, hs⟩]
      simp [List.filter, hv, hs]
    · rw [if_neg (fun hc => hs hc.2)]
      have hb : (e.serviceKey == s) = false := beq_eq_false_iff_ne.mpr hs
      simp [List.filter, hv, hb]
  · rw [Bool.not_eq_true] at hv
    rw [if_neg (fun hc => by rw [hv] at hc; exact Bool.false_ne_true hc.1)]
    simp [List.filter, hv]

theorem mem_keyFilter (cfg : Config) (now : ℚ) (s : String)
    (events : List RawEvent) (e : RawEvent) :
    e ∈ keyFilter cfg now s events ↔
      e ∈ events ∧ validate_event cfg now e = true ∧ e.serviceKey = s := by
  rw [keyFilter, List.mem_filter]
  simp [Bool.and_eq_true]

theorem validate_event_char (cfg : Config) (now : ℚ) (e : RawEvent) :
    validate_event cfg now e = true ↔
      (structurally_valid e = true ∧ ∀ t, e.parsedTs = some t → t ≤ now + 86400) := by
  obtain ⟨d, sv, ts⟩ := e
  match d, sv, ts with
  | false, sv, ts =>
    rw [show validate_event cfg now ⟨false, sv, ts⟩ = false from rfl,
      show structurally_valid ⟨false, sv, ts⟩ = false from rfl]
    simp
  | true, none, ts =>
    rw [show validate_event cfg now ⟨true, none, ts⟩ = false from rfl,
      show structurally_valid ⟨true, none, ts⟩ = false from rfl]
    simp
  | true, some .vother, ts =>
    rw [show validate_event cfg now ⟨true, some .vother, ts⟩ = false from rfl,
      show structurally_valid ⟨true, some .vother, ts⟩ = false from rfl]
    simp
  | true, some (.vstr s), none =>
    rw [show validate_event cfg now ⟨true, some (.vstr s), none⟩ = false from rfl,
      show structurally_valid ⟨true, some (.vstr s), none⟩ =
        ((!decide (pyStrip s = "") && decide ((pyStrip s).length ≤ 100)) && false) from rfl]
    simp
  | true, some (.vstr s), some none =>
    rw [show validate_event cfg now ⟨true, some (.vstr s), some none⟩ =
        (if pyStrip s = "" then false
         else if 100 < (pyStrip s).length then false else false) from rfl,
      show structurally_valid ⟨true, some (.vstr s), some none⟩ =
        ((!decide (pyStrip s = "") && decide ((pyStrip s).length ≤ 100)) && false) from rfl]
    split_ifs <;> simp
  | true, some (.vstr s), some (some t) =>
    rw [show validate_event cfg now ⟨true, some (.vstr s), some (some t)⟩ =
        (if pyStrip s = "" then false
         else if 100 < (pyStrip s).length then false
         else if now + 86400 < t then false else true) from rfl,
      show structurally_valid ⟨true, some (.vstr s), some (some t)⟩ =
        ((!decide (pyStrip s = "") && decide ((pyStrip s).length ≤ 100)) && true) from rfl,
      show (⟨true, some (.vstr s), some (some t)⟩ : RawEvent).parsedTs = some t from rfl]
    split_ifs with h1 h2 h3
    · simp [h1]
    · constructor
      · intro hc
        exact absurd hc (by simp)
      · rintro ⟨hs, -⟩
        simp only [Bool.and_eq_true, decide_eq_true_eq] at hs
        omega
    · constructor
      · intro hc
        exact absurd hc (by simp)
      · rintro ⟨-, hb⟩
        have := hb t rfl
        linarith
    · constructor
      · intro _
        refine ⟨?_, ?_⟩
        · simp only [Bool.and_eq_true, decide_eq_true_eq]
          refine ⟨⟨?_, ?_⟩, trivial⟩
          · simpa using h1
          · omega
        · intro t' ht'
          obtain rfl := Option.some.inj ht'
          linarith
      · intro _
        rfl

theorem validate_event_mono (cfg : Config) (now now' : ℚ) (e : RawEvent)
    (hle : now ≤ now') (h : validate_event cfg now e = true) :
    validate_event cfg now' e = true := by
  rw [validate_event_char] at h ⊢
  exact ⟨h.1, fun t ht => le_trans (h.2 t ht) (by linarith)⟩

theorem groupsInv_nil (cfg : Config) (now : ℚ) : GroupsInv cfg now [] [] := by
  refine ⟨List.nodup_nil, by simp, ?_, by simp⟩
  intro s _
  rfl

theorem groupsInv_step (cfg : Config) (now : ℚ) (processed : List RawEvent)
    (m : List (String × List RawEvent)) (e : RawEvent)
    (hinv : GroupsInv cfg now processed m) :
    GroupsInv cfg now (processed ++ [e]) (groupStep cfg now m e) := by
  obtain ⟨hnd, hent, habs, hne⟩ := hinv
  rw [groupStep]
  by_cases hv : validate_event cfg now e = true
  · rw [if_pos hv]
    have hkeys := insertEvent_map_fst e.serviceKey e m
    refine ⟨?_, ?_, ?_, ?_⟩
    · rw [hkeys]
      split_ifs with hmem
      · exact hnd
      · rw [List.nodup_append]
        refine ⟨hnd, List.nodup_singleton _, ?_⟩
        intro a ha hb
        rw [List.mem_singleton] at hb
        subst hb
        exact hmem ha
    · intro p hp
      rcases insertEvent_mem_cases e.serviceKey e m hnd p hp with
        ⟨hm, hnek⟩ | ⟨l, hl, hpe⟩ | ⟨hnot, hpe⟩
      · rw [hent p hm, keyFilter_append_single, if_neg, List.append_nil]
        rintro ⟨-, hc⟩
        exact hnek hc.symm
      · subst hpe
        show l ++ [e] = keyFilter cfg now e.serviceKey (processed ++ [e])
        rw [keyFilter_append_single, if_pos, ← hent (e.serviceKey, l) hl]
        exact ⟨hv, rfl⟩
      · subst hpe
        show [e] = keyFilter cfg now e.serviceKey (processed ++ [e])
        rw [keyFilter_append_single, if_pos, habs e.serviceKey hnot, List.nil_append]
        exact ⟨hv, rfl⟩
    · intro s hs
      rw [hkeys] at hs
      have hsm : s ∉ m.map Prod.fst := by
        split_ifs at hs with hmem
        · exact hs
        · exact fun hc => hs (List.mem_append.mpr (Or.inl hc))
      have hsk : s ≠ e.serviceKey := by
        split_ifs at hs with hmem
        · intro hc
          exact hs (hc ▸ hmem)
        · intro hc
          exact hs (List.mem_append.mpr (Or.inr (by simp [hc])))
      rw [keyFilter_append_single, if_neg (fun hc => hsk hc.2.symm), habs s hsm,
        List.nil_append]
    · intro p hp
      rcases insertEvent_mem_cases e.serviceKey e m hnd p hp with
        ⟨hm, -⟩ | ⟨l, hl, hpe⟩ | ⟨-, hpe⟩
      · exact hne p hm
      · subst hpe
        simp
      · subst hpe
        simp
  · rw [if_neg hv]
    have hsame : ∀ s, keyFilter cfg now s (processed ++ [e]) = keyFilter cfg now s processed := by
      intro s
      rw [keyFilter_append_single, if_neg (fun hc => hv hc.1), List.append_nil]
    exact ⟨hnd, fun p hp => (hsame p.1) ▸ hent p hp, fun s hs => (hsame s) ▸ habs s hs, hne⟩

theorem groupsInv_fold (cfg : Config) (now : ℚ) :
    ∀ (evs : List RawEvent) (m : List (String × List RawEvent)) (processed : List RawEvent),
      GroupsInv cfg now processed m →
      GroupsInv cfg now (processed ++ evs) (evs.foldl (groupStep cfg now) m) := by
  intro evs
  induction evs with
  | nil => intro m processed h; simpa using h
  | cons e rest ih =>
    intro m processed h
    have h1 := groupsInv_step cfg now processed m e h
    have h2 := ih (groupStep cfg now m e) (processed ++ [e]) h1
    rw [List.append_assoc] at h2
    simpa using h2

theorem rawGroups_inv (cfg : Config) (now : ℚ) (events : List RawEvent) :
    GroupsInv cfg now events (rawGroups cfg now events) := by
  have := groupsInv_fold cfg now events [] [] (groupsInv_nil cfg now)
  simpa [rawGroups] using this

theorem insertEvent_not_mem (k : String) (e : RawEvent) :
    ∀ m : List (String × List RawEvent), k ∉ m.map Prod.fst →
      insertEvent k e m = m ++ [(k, [e])] := by
  intro m
  induction m with
  | nil => intro _; rfl
  | cons q rest ih =>
    intro hk
    obtain ⟨k', l⟩ := q
    rw [List.map_cons, List.mem_cons] at hk
    push_neg at hk
    rw [insertEvent, if_neg (fun hc => hk.1 hc.symm), ih hk.2, List.cons_append]

theorem insertEvent_append_last (k : String) (e : RawEvent) (p : List RawEvent) :
    ∀ m : List (String × List RawEvent), k ∉ m.map Prod.fst →
      insertEvent k e (m ++ [(k, p)]) = m ++ [(k, p ++ [e])] := by
  intro m
  induction m with
  | nil => simp [insertEvent]
  | cons q rest ih =>
    intro hk
    obtain ⟨k', l⟩ := q
    rw [List.map_cons, List.mem_cons] at hk
    push_neg at hk
    rw [List.cons_append, insertEvent, if_neg (fun hc => hk.1 hc.symm), ih hk.2,
      List.cons_append]

theorem foldl_groupStep_block (cfg : Config) (now : ℚ) (k : String) :
    ∀ (l : List RawEvent) (m : List (String × List RawEvent)) (p : List RawEvent),
      (∀ e ∈ l, validate_event cfg now e = true ∧ e.serviceKey = k) →
      k ∉ m.map Prod.fst →
      l.foldl (groupStep cfg now) (m ++ [(k, p)]) = m ++ [(k, p ++ l)] := by
  intro l
  induction l with
  | nil => intro m p _ _; simp
  | cons e rest ih =>
    intro m p hl hk
    obtain ⟨hv, hkey⟩ := hl e (List.mem_cons_self _ _)
    rw [List.foldl_cons, groupStep, if_pos hv, hkey, insertEvent_append_last k e p m hk,
      ih m (p ++ [e]) (fun x hx => hl x (List.mem_cons_of_mem _ hx)) hk,
      List.append_assoc, List.singleton_append]

theorem foldl_groupStep_blocks (cfg : Config) (now : ℚ) :
    ∀ (blocks : List (String × List RawEvent)) (m : List (String × List RawEvent)),
      (∀ b ∈ blocks, b.2 ≠ [] ∧
        ∀ e ∈ b.2, validate_event cfg now e = true ∧ e.serviceKey = b.1) →
      (m.map Prod.fst ++ blocks.map Prod.fst).Nodup →
      ((blocks.map Prod.snd).flatten).foldl (groupStep cfg now) m = m ++ blocks := by
  intro blocks
  induction blocks with
  | nil => intro m _ _; simp
  | cons b rest ih =>
    intro m hhom hnd
    obtain ⟨k, l⟩ := b
    obtain ⟨hne, hval⟩ := hhom (k, l) (List.mem_cons_self _ _)
    obtain ⟨e, l', rfl⟩ : ∃ e l', l = e :: l' := by
      cases l with
      | nil => exact absurd rfl hne
      | cons e l' => exact ⟨e, l', rfl⟩
    have hkm : k ∉ m.map Prod.fst := by
      rw [List.nodup_append] at hnd
      intro hc
      exact hnd.2.2 hc (by simp)
    obtain ⟨hv, hkey⟩ := hval e (List.mem_cons_self _ _)
    rw [List.map_cons, List.flatten_cons, List.foldl_append, List.foldl_cons,
      groupStep, if_pos hv, hkey, insertEvent_not_mem k e m hkm,
      foldl_groupStep_block cfg now k l' m [e]
        (fun x hx => hval x (List.mem_cons_of_mem _ hx)) hkm,
      ih (m ++ [(k, [e] ++ l')]) (fun b hb => hhom b (List.mem_cons_of_mem _ hb))
        (by simpa using hnd)]
    simp

theorem list_map_id_of_mem {α : Type} (f : α → α) :
    ∀ l : List α, (∀ x ∈ l, f x = x) → l.map f = l := by
  intro l
  induction l with
  | nil => intro _; rfl
  | cons x xs ih =>
    intro h
    rw [List.map_cons, h x (List.mem_cons_self _ _),
      ih (fun y hy => h y (List.mem_cons_of_mem _ hy))]

theorem sort_events_entry_spec (cfg : Config) (now : ℚ) (events : List RawEvent) :
    ∀ p ∈ sort_events_by_service cfg now events,
      p.2 = dedupByKey RawEvent.eventInstant []
          (sortByKey RawEvent.eventInstant (keyFilter cfg now p.1 events)) ∧
      p.2 ≠ [] ∧
      (∀ e ∈ p.2, validate_event cfg now e = true ∧ e.serviceKey = p.1) ∧
      (p.2.map RawEvent.eventInstant).Nodup ∧
      p.2.Pairwise (fun a b => a.eventInstant ≤ b.eventInstant) := by
  intro p hp
  obtain ⟨hnd, hent, -, hne⟩ := rawGroups_inv cfg now events
  rw [sort_events_by_service] at hp
  obtain ⟨g, hg, rfl⟩ := List.mem_map.mp hp
  have hg2 : g.2 = keyFilter cfg now g.1 events := hent g hg
  have hgne : g.2 ≠ [] := hne g hg
  refine ⟨by rw [← hg2], ?_, ?_, ?_, ?_⟩
  · -- the sorted, deduplicated group is nonempty
    obtain ⟨x, xs, hx⟩ : ∃ x xs, sortByKey RawEvent.eventInstant g.2 = x :: xs := by
      rcases hsort : sortByKey RawEvent.eventInstant g.2 with - | ⟨x, xs⟩
      · exfalso
        apply hgne
        have hperm := sortByKey_perm RawEvent.eventInstant g.2
        rw [hsort] at hperm
        exact hperm.symm.eq_nil
      · exact ⟨x, xs, rfl⟩
    show dedupByKey RawEvent.eventInstant [] (sortByKey RawEvent.eventInstant g.2) ≠ []
    rw [hx]
    exact dedupByKey_ne_nil RawEvent.eventInstant x xs
  · intro e he
    have he2 : e ∈ sortByKey RawEvent.eventInstant g.2 :=
      (dedupByKey_sublist RawEvent.eventInstant [] _).mem he
    have he3 : e ∈ g.2 := (sortByKey_perm RawEvent.eventInstant g.2).mem_iff.mp he2
    rw [hg2] at he3
    obtain ⟨-, hv, hk⟩ := (mem_keyFilter cfg now g.1 events e).mp he3
    exact ⟨hv, hk⟩
  · exact (dedupByKey_keys_nodup RawEvent.eventInstant [] _).1
  · exact (sortByKey_pairwise RawEvent.eventInstant g.2).sublist
      (dedupByKey_sublist RawEvent.eventInstant [] _)

theorem sort_events_keys_nodup (cfg : Config) (now : ℚ) (events : List RawEvent) :
    ((sort_events_by_service cfg now events).map Prod.fst).Nodup := by
  obtain ⟨hnd, -, -, -⟩ := rawGroups_inv cfg now events
  rw [sort_events_by_service, List.map_map]
  exact hnd

/-- C9: grouping is idempotent.  Feeding the concatenation of the
per-service lists produced by `sort_events_by_service` back into
`sort_events_by_service`, at the same or a later wall-clock time,
returns the same mapping: same service keys in the same order and, per
service, the same event lists in the same order. -/
theorem sort_events_by_service_idempotent (cfg : Config) (now now' : ℚ)
    (events : List RawEvent) (hle : now ≤ now') :
    sort_events_by_service cfg now'
        (((sort_events_by_service cfg now events).map Prod.snd).flatten) =
      sort_events_by_service cfg now events := by
  have hspec := sort_events_entry_spec cfg now events
  have hkeys := sort_events_keys_nodup cfg now events
  have hblocks : rawGroups cfg now'
      (((sort_events_by_service cfg now events).map Prod.snd).flatten) =
      sort_events_by_service cfg now events := by
    have := foldl_groupStep_blocks cfg now' (sort_events_by_service cfg now events) []
      (fun b hb => ⟨(hspec b hb).2.1, fun e he =>
        ⟨validate_event_mono cfg now now' e hle ((hspec b hb).2.2.1 e he).1,
         ((hspec b hb).2.2.1 e he).2⟩⟩)
      (by simpa using hkeys)
    simpa [rawGroups] using this
  rw [sort_events_by_service, hblocks]
  apply list_map_id_of_mem
  intro p hp
  obtain ⟨-, -, -, hnodup, hpair⟩ := hspec p hp
  have hsorted : sortByKey RawEvent.eventInstant p.2 = p.2 :=
    sortByKey_sorted_eq RawEvent.eventInstant p.2 hpair
  rw [hsorted, dedupByKey_eq_self RawEvent.eventInstant [] p.2 hnodup (by simp)]

/-- Closed witness for `sort_events_by_service_idempotent` on a small
concrete input with two services, a duplicate instant, and untrimmed
whitespace in a service name. -/
theorem sort_events_by_service_idempotent_witness :
    sort_events_by_service ⟨60, 3, 1/10, 300, 10⟩ 10
        (((sort_events_by_service ⟨60, 3, 1/10, 300, 10⟩ 0
          [⟨true, some (.vstr "b"), some (some 0)⟩,
           ⟨true, some (.vstr "a"), some (some 0)⟩,
           ⟨true, some (.vstr " a "), some (some 5)⟩,
           ⟨true, some (.vstr "a"), some (some 0)⟩]).map Prod.snd).flatten) =
      sort_events_by_service ⟨60, 3, 1/10, 300, 10⟩ 0
        [⟨true, some (.vstr "b"), some (some 0)⟩,
         ⟨true, some (.vstr "a"), some (some 0)⟩,
         ⟨true, some (.vstr " a "), some (some 5)⟩,
         ⟨true, some (.vstr "a"), some (some 0)⟩] :=
  sort_events_by_service_idempotent ⟨60, 3, 1/10, 300, 10⟩ 0 10 _ (by norm_num)

theorem qmin_le : ∀ (l : List ℚ) (m : ℚ), qmin l = some m → ∀ x ∈ l, m ≤ x := by
  intro l
  induction l with
  | nil => intro m h; simp [qmin] at h
  | cons y ys ih =>
    intro m h x hx
    rw [qmin] at h
    rcases hys : qmin ys with - | m'
    · rw [hys] at h
      obtain rfl := Option.some.inj h
      rcases List.mem_cons.mp hx with rfl | hx2
      · exact le_refl x
      · exact absurd hys (by
          cases ys with
          | nil => simp at hx2
          | cons z zs =>
            rw [qmin]
            rcases qmin zs with - | w <;> simp)
    · rw [hys] at h
      obtain rfl := Option.some.inj h
      rcases List.mem_cons.mp hx with rfl | hx2
      · exact min_le_left _ _
      · exact le_trans (min_le_right _ _) (ih m' hys x hx2)

theorem qmin_isSome : ∀ (l : List ℚ), l ≠ [] → ∃ m, qmin l = some m := by
  intro l hl
  cases l with
  | nil => exact absurd rfl hl
  | cons y ys =>
    rw [qmin]
    rcases qmin ys with - | m'
    · exact ⟨y, rfl⟩
    · exact ⟨min y m', rfl⟩

theorem detect_alerts_ge (cfg : Config) (now : ℚ) (hv : cfg.Valid)
    (x : ℚ) (xs : List ℚ) (l : List ℚ)
    (h : detect_missed_heartbeats cfg now (x :: xs) = some l) :
    ∀ a ∈ l, x + (cfg.interval_seconds : ℚ) ≤ a := by
  obtain ⟨hi, ht0, hti, hgl, -⟩ := config_valid_facts hv
  have hunf : detect_missed_heartbeats cfg now (x :: xs) =
      detectAux cfg now ((x :: xs).getLastD 0)
        (cfg.allowed_misses.toNat + ratBound ((now - x) / (cfg.interval_seconds : ℚ)) + 1)
        (xs.length + ratBound ((xs.foldr max x + (cfg.interval_seconds : ℚ) - x)
          / (cfg.interval_seconds : ℚ)) + 1)
        xs x 0 [] := rfl
  rw [hunf] at h
  have hmem := (detectAux_invariant cfg now _ _ hi hti hgl _ xs x 0 [] l
    List.Pairwise.nil (by simp) h).2
  intro a ha
  rcases hmem a ha with hin | hge
  · simp at hin
  · exact hge

theorem collectAlerts_mem (cfg : Config) (now : ℚ) :
    ∀ (groups : List (String × List RawEvent)) (L : List Alert),
      collectAlerts cfg now groups = some L →
      ∀ al ∈ L, ∃ g ∈ groups, al.service = g.1 ∧
        ∃ ts, detect_missed_heartbeats cfg now (g.2.map RawEvent.eventInstant) = some ts ∧
          ∃ t ∈ ts, al.alert_at = ⌊t⌋ := by
  intro groups
  induction groups with
  | nil =>
    intro L h al hal
    obtain rfl := Option.some.inj h
    simp at hal
  | cons g rest ih =>
    intro L h al hal
    obtain ⟨name, evs⟩ := g
    rw [collectAlerts] at h
    rcases hdet : detect_missed_heartbeats cfg now (evs.map RawEvent.eventInstant)
        with - | ts <;>
      rcases hrec : collectAlerts cfg now rest with - | tl <;>
      rw [hdet, hrec] at h <;>
      simp only [] at h
    · exact absurd h (by simp)
    · exact absurd h (by simp)
    · exact absurd h (by simp)
    · obtain rfl := Option.some.inj h
      rcases List.mem_append.mp hal with hal1 | hal2
      · obtain ⟨t, ht, rfl⟩ := List.mem_map.mp hal1
        exact ⟨(name, evs), List.mem_cons_self _ _, rfl, ts, hdet, t, ht, rfl⟩
      · obtain ⟨g', hg', hsvc, ts', hts', t, ht, hfl⟩ := ih tl hrec al hal2
        exact ⟨g', List.mem_cons_of_mem _ hg', hsvc, ts', hts', t, ht, hfl⟩

/-- C4: for every input event list, every valid configuration, and every
wall-clock time, each alert's `alert_at` is not earlier than the instant
of the first (earliest) validated event of its service. -/
theorem alert_not_before_first_event (cfg : Config) (now : ℚ)
    (events : List RawEvent) (res : List Alert) (hv : cfg.Valid)
    (h : monitor_heartbeats cfg now events = some res) :
    ∀ al ∈ res, ∃ m, minInstantOfService cfg now events al.service = some m ∧
      m ≤ (al.alert_at : ℚ) := by
  rw [monitor_heartbeats] at h
  rcases hcol : collectAlerts cfg now (sort_events_by_service cfg now events)
      with - | L
  · rw [hcol] at h
    exact absurd h (by simp)
  · rw [hcol] at h
    rw [Option.map_some', Option.some.injEq] at h
    subst h
    intro al hal
    have halL : al ∈ L :=
      (sortByKey_perm (fun a : Alert => (a.alert_at : ℚ)) L).mem_iff.mp hal
    obtain ⟨g, hg, hsvc, ts, hts, t, ht, hfl⟩ :=
      collectAlerts_mem cfg now _ L hcol al halL
    obtain ⟨hg2, hgne, -, -, -⟩ := sort_events_entry_spec cfg now events g hg
    obtain ⟨e0, rest, hge⟩ : ∃ e0 rest, g.2 = e0 :: rest := by
      cases hc : g.2 with
      | nil => exact absurd hc hgne
      | cons e0 rest => exact ⟨e0, rest, rfl⟩
    have hmap : g.2.map RawEvent.eventInstant =
        e0.eventInstant :: rest.map RawEvent.eventInstant := by
      rw [hge, List.map_cons]
    rw [hmap] at hts
    have hta : e0.eventInstant + (cfg.interval_seconds : ℚ) ≤ t :=
      detect_alerts_ge cfg now hv e0.eventInstant (rest.map RawEvent.eventInstant)
        ts hts t ht
    have he0g : e0 ∈ g.2 := by
      rw [hge]
      exact List.mem_cons_self _ _
    have he0in : e0 ∈ keyFilter cfg now g.1 events := by
      rw [hg2] at he0g
      have h1 : e0 ∈ sortByKey RawEvent.eventInstant (keyFilter cfg now g.1 events) :=
        (dedupByKey_sublist RawEvent.eventInstant [] _).mem he0g
      exact (sortByKey_perm RawEvent.eventInstant _).mem_iff.mp h1
    have hinst : e0.eventInstant ∈
        (keyFilter cfg now g.1 events).map RawEvent.eventInstant :=
      List.mem_map_of_mem RawEvent.eventInstant he0in
    obtain ⟨m, hm⟩ := qmin_isSome _ (List.ne_nil_of_mem hinst)
    have hmle : m ≤ e0.eventInstant := qmin_le _ m hm _ hinst
    refine ⟨m, ?_, ?_⟩
    · rw [minInstantOfService, hsvc]
      exact hm
    · have h1le : (1 : ℚ) ≤ (cfg.interval_seconds : ℚ) := by
        exact_mod_cast hv.1
      have hfloor : (t : ℚ) - 1 < (⌊t⌋ : ℚ) := Int.sub_one_lt_floor t
      rw [hfl]
      linarith

/-- Closed witness for `alert_not_before_first_event`: the Scenario A
input (a 3-minute gap for service `"email"`), at its one alert. -/
theorem alert_not_before_first_event_witness :
    ∃ m, minInstantOfService ⟨60, 3, 1/10, 300, 10⟩ 360
        [⟨true, some (.vstr "email"), some (some 0)⟩,
         ⟨true, some (.vstr "email"), some (some 60)⟩,
         ⟨true, some (.vstr "email"), some (some 120)⟩,
         ⟨true, some (.vstr "email"), some (some 360)⟩] "email" = some m ∧
      m ≤ ((300 : ℤ) : ℚ) :=
  alert_not_before_first_event ⟨60, 3, 1/10, 300, 10⟩ 360
    [⟨true, some (.vstr "email"), some (some 0)⟩,
     ⟨true, some (.vstr "email"), some (some 60)⟩,
     ⟨true, some (.vstr "email"), some (some 120)⟩,
     ⟨true, some (.vstr "email"), some (some 360)⟩]
    [⟨"email", 300⟩] (by with_unfolding_all decide) (by with_unfolding_all decide)
    ⟨"email", 300⟩ (List.mem_cons_self _ _)
